import Mathlib

/-!
Verification of the COA (chart of accounts) transformation pipeline.

The pipeline is modelled shallowly: a pandas `DataFrame` becomes a `List` of
records, a string cell becomes a `List Char`, a nullable numeric cell becomes
an `Option Int`, and every pandas operation used by the program (filter,
groupby-rank with first-occurrence tie-break, inner merge, cross merge,
concat, sort, left anti join) is translated to the corresponding list
operation.  `List.insertionSort` stands in for `sort_values`; no verified
claim depends on the realized row order of a sort.
-/

namespace Coa

/-- The path separator: the string literal ' | ' used by the builder. -/
def sepChars : List Char := [' ', '|', ' ']

/-- The indent unit: the string literal '--- ' used by the builder. -/
def indentUnit : List Char := ['-', '-', '-', ' ']

/-- Decimal rendering with explicit fuel (structural recursion; the fuel
`n + 1` used below always suffices since a number has at most `n + 1`
digits). -/
def natToCharsFuel : Nat → Nat → List Char
  | 0, _ => []
  | fuel + 1, n =>
    if n < 10 then [Char.ofNat (48 + n)]
    else natToCharsFuel fuel (n / 10) ++ [Char.ofNat (48 + n % 10)]

/-- Decimal rendering of a natural number, one character per digit.
Models Python `str(n)` for a nonnegative int. -/
def natToChars (n : Nat) : List Char :=
  natToCharsFuel (n + 1) n

/-- `str(id_value).zfill(2)`: pad with leading zeros to width 2. -/
def zfill2 (s : List Char) : List Char :=
  List.replicate (2 - s.length) '0' ++ s

/-- `COATransformer.skey`: creates the rank string from the rank number,
e.g. 1 becomes "01"; replicates `substring('00' || id::varchar, -2)`
as implemented by `str(id_value).zfill(2)`. -/
def skey (idValue : Nat) : List Char :=
  zfill2 (natToChars idValue)

/-- Greedy left-to-right separator scan with explicit fuel (structural
recursion; the fuel `s.length + 1` used below always suffices because each
step consumes at least one character). -/
def splitSepFuel : Nat → List Char → List Char → List (List Char)
  | 0, _, s => [s]
  | fuel + 1, sep, s =>
    match s with
    | [] => [[]]
    | c :: rest =>
      if sep.isPrefixOf (c :: rest) && !sep.isEmpty then
        [] :: splitSepFuel fuel sep ((c :: rest).drop sep.length)
      else
        match splitSepFuel fuel sep rest with
        | [] => [[c]]
        | h :: t => (c :: h) :: t

/-- Python `s.split(sep)` for a nonempty separator: greedy left-to-right
scan for non-overlapping occurrences. -/
def splitSep (sep : List Char) (s : List Char) : List (List Char) :=
  splitSepFuel (s.length + 1) sep s

/-- Joining a list of segments with the path separator (what the level-by-level
concatenation of the builder produces along one ancestor chain). -/
def joinSep : List (List Char) → List Char
  | [] => []
  | [x] => x
  | x :: y :: rest => x ++ sepChars ++ joinSep (y :: rest)

/-- One row of the flat input table (the columns the pipeline reads). -/
structure Account where
  order : Option Int        -- NUM_FIN_STAT_ORDER after `pd.to_numeric(errors='coerce')`; `none` = not a valid number
  code : List Char          -- CODE_FIN_STAT
  name : List Char          -- NAME_FIN_STAT
  parentCode : List Char    -- CODE_PARENT_FIN_STAT
  typeAccount : List Char   -- TYPE_ACCOUNT
  stmtType : List Char      -- TYPE_FIN_STATEMENT
  nameEng : List Char       -- NAME_FIN_STAT_ENG
deriving DecidableEq, Inhabited, Repr

/-- One row of COA_TEMPLATE_TEMP: the selected columns after ranking. -/
structure Ranked where
  order : Int               -- NUM_FIN_STAT_ORDER (numeric, nulls filtered out)
  rankStr : List Char       -- CODE_FIN_STAT_RANK
  code : List Char
  name : List Char
  parentCode : List Char
  typeAccount : List Char
  stmtType : List Char
  nameEng : List Char
deriving DecidableEq, Inhabited, Repr

/-- Strict comparison of (order value, original row position): the order used
by `rank(method='first')` (ascending values, ties broken by first occurrence). -/
def keyLt (x y : Int × Nat) : Bool :=
  decide (x.1 < y.1) || (decide (x.1 = y.1) && decide (x.2 < y.2))

/-- Same (TYPE_FIN_STATEMENT, CODE_PARENT_FIN_STAT) groupby key. -/
def sameGroup (b a : Account) : Bool :=
  b.stmtType == a.stmtType && b.parentCode == a.parentCode

/-- The numeric order of a row already known to have one. -/
def ord0 (a : Account) : Int := a.order.getD 0

/-- `groupby(['TYPE_FIN_STATEMENT','CODE_PARENT_FIN_STAT'])['NUM_FIN_STAT_ORDER']
.rank(method='first')` for the row `a` sitting at position `i` of the filtered
frame `f`: one plus the number of rows of the same group whose
(value, position) key is strictly smaller. -/
def rankIn (f : List Account) (i : Nat) (a : Account) : Nat :=
  1 + f.enum.countP (fun jb =>
    sameGroup jb.2 a && keyLt (ord0 jb.2, jb.1) (ord0 a, i))

/-- `_create_coa_template_temp`: drop rows whose order is not a valid number,
rank within each (statement type, parent code) group, format the rank with
`skey`, and keep the selected columns. -/
def createCoaTemplateTemp (input : List Account) : List Ranked :=
  let f := input.filter (fun a => a.order.isSome)
  f.enum.map (fun ia =>
    { order := ord0 ia.2
      rankStr := skey (rankIn f ia.1 ia.2)
      code := ia.2.code
      name := ia.2.name
      parentCode := ia.2.parentCode
      typeAccount := ia.2.typeAccount
      stmtType := ia.2.stmtType
      nameEng := ia.2.nameEng })

/-- `CODE_PARENT_FIN_STAT.isin(['BS','PL'])`. -/
def isRootMarker (s : List Char) : Bool :=
  s == ['B', 'S'] || s == ['P', 'L']

/-- One row of the hierarchy frame: a placed node. -/
structure Node where
  level : Nat               -- NUM_FIN_STAT_LEVEL
  order : Int               -- NUM_FIN_STAT_ORDER
  rankStr : List Char       -- CODE_FIN_STAT_RANK
  code : List Char
  name : List Char
  parentCode : List Char
  typeAccount : List Char
  stmtType : List Char
  nameEng : List Char
  indent : List Char        -- INDENT
  codeFull : List Char      -- CODE_FIN_STAT_FULL
  nameFull : List Char      -- NAME_FIN_STAT_FULL
deriving DecidableEq, Inhabited, Repr

/-- The ranked row a placed node came from (its non-derived columns). -/
def Node.toRanked (n : Node) : Ranked :=
  { order := n.order, rankStr := n.rankStr, code := n.code, name := n.name
    parentCode := n.parentCode, typeAccount := n.typeAccount
    stmtType := n.stmtType, nameEng := n.nameEng }

/-- Anchor step of `_build_hierarchy`: a root item gets level 0, empty indent,
its own code as full code path, and rank + '-' + name as full name path. -/
def mkRoot (a : Ranked) : Node :=
  { level := 0, order := a.order, rankStr := a.rankStr, code := a.code
    name := a.name, parentCode := a.parentCode, typeAccount := a.typeAccount
    stmtType := a.stmtType, nameEng := a.nameEng
    indent := []
    codeFull := a.code
    nameFull := a.rankStr ++ '-' :: a.name }

def rootNodes (temp : List Ranked) : List Node :=
  (temp.filter (fun a => isRootMarker a.parentCode)).map mkRoot

/-- Child update of `_build_hierarchy`: level, indent, and both full paths
are extended from the parent node. -/
def mkChild (a : Ranked) (p : Node) : Node :=
  { level := p.level + 1, order := a.order, rankStr := a.rankStr, code := a.code
    name := a.name, parentCode := a.parentCode, typeAccount := a.typeAccount
    stmtType := a.stmtType, nameEng := a.nameEng
    indent := p.indent ++ indentUnit
    codeFull := p.codeFull ++ sepChars ++ a.code
    nameFull := p.nameFull ++ sepChars ++ (a.rankStr ++ '-' :: a.name) }

/-- The inner merge of `coa_temp` with the previous level on
CODE_PARENT_FIN_STAT = PARENT_CODE: one child row per matching pair,
in left-frame order. -/
def childStep (temp : List Ranked) (cur : List Node) : List Node :=
  temp.flatMap (fun a =>
    (cur.filter (fun p => p.code == a.parentCode)).map (fun p => mkChild a p))

/-- The `for level in range(1, max_depth + 1)` loop of `_build_hierarchy`:
collect each level's children, stopping when a level is empty or when the
fuel (10 iterations) runs out. -/
def buildLevels (temp : List Ranked) : Nat → List Node → List (List Node)
  | 0, _ => []
  | n + 1, cur =>
    let children := childStep temp cur
    if children.isEmpty then []
    else children :: buildLevels temp n children

/-- `_build_hierarchy`: anchor at the BS/PL roots, expand for at most 10
levels, and concatenate all levels. -/
def buildHierarchy (temp : List Ranked) : List Node :=
  let roots := rootNodes temp
  (roots :: buildLevels temp 10 roots).flatten

/-- The nodes the builder places at a given depth (`placedAt temp 0` is the
anchor, `placedAt temp (k+1)` the children of depth k). -/
def placedAt (temp : List Ranked) : Nat → List Node
  | 0 => rootNodes temp
  | k + 1 => childStep temp (placedAt temp k)

/-- `_get_level_value`: the segment of the ' | '-split path at `levelIdx`
if it exists, else the segment at `currentLevel`, else empty; double quotes
are removed from the returned segment. -/
def getLevelValue (fullPath : List Char) (levelIdx : Nat) (currentLevel : Nat) : List Char :=
  let parts := splitSep sepChars fullPath
  if levelIdx < parts.length then
    (parts.getD levelIdx []).filter (fun c => c != '\"')
  else if currentLevel < parts.length then
    (parts.getD currentLevel []).filter (fun c => c != '\"')
  else []

/-- `x[3:] if len(str(x)) > 3 else x`: drop the assumed 'NN-' rank prefix. -/
def stripRank (x : List Char) : List Char :=
  if 3 < x.length then x.drop 3 else x

/-- One row of the flattened frame produced by `_flatten_hierarchy`. -/
structure Flat extends Node where
  nameParent : Option (List Char)      -- NAME_FIN_STAT_PARENT (none = NaN, blank on export)
  nameIndent : List Char               -- NAME_FIN_STAT_INDENT
  levelCodes : List (List Char)        -- CODE_FIN_STAT_L1 .. L10
  levelNames : List (List Char)        -- NAME_FIN_STAT_L1 .. L10
  levelOrderedNames : List (List Char) -- NAME_FIN_STAT_L1_ORDERED_NAME .. L10
deriving DecidableEq, Inhabited, Repr

/-- The `parent_lookup` dict: code to name over the hierarchy frame, a later
row overwriting an earlier one with the same code, then `.map` on the parent
code (missing key = NaN = `none`). -/
def parentLookup (h : List Node) (pc : List Char) : Option (List Char) :=
  ((h.filter (fun m => m.code == pc)).getLast?).map (fun m => m.name)

/-- The per-row work of `_flatten_hierarchy`. -/
def mkFlat (h : List Node) (n : Node) : Flat :=
  { toNode := n
    nameParent := parentLookup h n.parentCode
    nameIndent := n.indent ++ n.name
    levelCodes := (List.range 10).map (fun i => getLevelValue n.codeFull i n.level)
    levelNames := (List.range 10).map (fun i => getLevelValue n.nameFull i n.level)
    levelOrderedNames :=
      (List.range 10).map (fun i => stripRank (getLevelValue n.nameFull i n.level)) }

/-- Lexicographic comparison of two strings (model of pandas string sort). -/
def strLe : List Char → List Char → Bool
  | [], _ => true
  | _ :: _, [] => false
  | a :: as, b :: bs => if a == b then strLe as bs else decide (a < b)

/-- `_flatten_hierarchy`: add parent name, indent name, and the ten level
columns for codes and names, then sort by CODE_FIN_STAT_FULL. -/
def flattenHierarchy (h : List Node) : List Flat :=
  List.insertionSort (fun x y => strLe x.codeFull y.codeFull = true) (h.map (mkFlat h))

/-- One row of the final enriched output: the columns `_identify_leafs`
selects (INDENT is dropped, NFLAG_IS_LEAF added). -/
structure Out where
  level : Nat
  order : Int
  rankStr : List Char
  code : List Char
  name : List Char
  nameIndent : List Char
  parentCode : List Char
  nameParent : Option (List Char)
  nameEng : List Char
  typeAccount : List Char
  stmtType : List Char
  isLeaf : Nat                         -- NFLAG_IS_LEAF
  codeFull : List Char
  nameFull : List Char
  levelCodes : List (List Char)
  levelNames : List (List Char)
  levelOrderedNames : List (List Char)
deriving DecidableEq, Inhabited, Repr

/-- The ranked row an output row came from (its non-derived columns). -/
def Out.toRanked (y : Out) : Ranked :=
  { order := y.order, rankStr := y.rankStr, code := y.code, name := y.name
    parentCode := y.parentCode, typeAccount := y.typeAccount
    stmtType := y.stmtType, nameEng := y.nameEng }

/-- The per-row work of `_identify_leafs`: the flag is 1 iff the row's code
is not among the parent codes of the flattened frame. -/
def mkOut (parentCodes : List (List Char)) (x : Flat) : Out :=
  { level := x.level, order := x.order, rankStr := x.rankStr, code := x.code
    name := x.name, nameIndent := x.nameIndent, parentCode := x.parentCode
    nameParent := x.nameParent, nameEng := x.nameEng
    typeAccount := x.typeAccount, stmtType := x.stmtType
    isLeaf := if parentCodes.contains x.code then 0 else 1
    codeFull := x.codeFull, nameFull := x.nameFull
    levelCodes := x.levelCodes, levelNames := x.levelNames
    levelOrderedNames := x.levelOrderedNames }

/-- `_identify_leafs`: compute NFLAG_IS_LEAF over the full frame, select the
final columns, and sort by (TYPE_FIN_STATEMENT, NUM_FIN_STAT_ORDER). -/
def identifyLeafs (l : List Flat) : List Out :=
  let parentCodes := l.map (fun x => x.parentCode)
  List.insertionSort (fun x y =>
    (if x.stmtType == y.stmtType then decide (x.order ≤ y.order)
     else strLe x.stmtType y.stmtType) = true) (l.map (mkOut parentCodes))

/-- `transform_coa`: the full pipeline. -/
def transformCoa (input : List Account) : List Out :=
  identifyLeafs (flattenHierarchy (buildHierarchy (createCoaTemplateTemp input)))

/-- One row of the business subunit table (only the primary key column is
read by the program). -/
structure Subunit where
  pk : List Char            -- PK_BUSINESS_SUBUNIT
deriving DecidableEq, Inhabited, Repr

/-- `create_business_subunit_coa`: filter the subunit table on the requested
business unit code and cross-join it with the enriched COA, the subunit key
becoming the first column. -/
def createBusinessSubunitCoa (coaOutput : List Out) (businessUnitCode : List Char)
    (subunits : List Subunit) : List (List Char × Out) :=
  let filtered := (subunits.filter (fun s => s.pk == businessUnitCode)).map (fun s => s.pk)
  coaOutput.flatMap (fun r => filtered.map (fun p => (p, r)))

/-- `debug_count_check`: the input rows whose CODE_FIN_STAT never appears in
the enriched output (the `_merge == 'left_only'` rows of the indicator
left join, projected to the input columns). -/
def debugCountCheck (input : List Account) (output : List Out) : List Account :=
  input.filter (fun a => output.all (fun o => o.code != a.code))

/-! ### Ancestor chains

A chain is a root-first list of ranked rows, each row's parent code being the
previous row's code.  The builder materializes exactly such chains in the
path strings of the nodes it places. -/

/-- Consecutive rows of the list are parent-linked and all belong to `temp`. -/
def chainOk (temp : List Ranked) : List Ranked → Bool
  | [] => false
  | [a] => temp.contains a
  | a :: b :: rest => temp.contains a && b.parentCode == a.code && chainOk temp (b :: rest)

/-- A parent-linked chain whose first row is anchored at a BS/PL marker. -/
def rootedChain (temp : List Ranked) (l : List Ranked) : Bool :=
  chainOk temp l && ((l.head?.map (fun a => isRootMarker a.parentCode)).getD false)

/-- The full code path a chain produces. -/
def codePath (l : List Ranked) : List Char :=
  joinSep (l.map (fun a => a.code))

/-- The full name path a chain produces. -/
def namePath (l : List Ranked) : List Char :=
  joinSep (l.map (fun a => a.rankStr ++ '-' :: a.name))

/-- `j`-fold application of the child step. -/
def iterChild (temp : List Ranked) : Nat → List Node → List Node
  | 0, cur => cur
  | j + 1, cur => childStep temp (iterChild temp j cur)

/-! ### Concrete example inputs (used to instantiate the verified statements) -/

/-- The reference scenario: A1 under the BS root, A2 under A1. -/
def exW : List Account :=
  [{ order := some 100, code := "A1".toList, name := "NameA1".toList
     parentCode := "BS".toList, typeAccount := "A".toList
     stmtType := "BS".toList, nameEng := "NameA1".toList },
   { order := some 100, code := "A2".toList, name := "NameA2".toList
     parentCode := "A1".toList, typeAccount := "A".toList
     stmtType := "BS".toList, nameEng := "NameA2".toList }]

/-- Two root siblings of one group with distinct orders (5 listed before 3). -/
def exGX : Account :=
  { order := some 5, code := "X".toList, name := "NX".toList
    parentCode := "BS".toList, typeAccount := "A".toList
    stmtType := "BS".toList, nameEng := "NX".toList }

def exGY : Account :=
  { order := some 3, code := "Y".toList, name := "NY".toList
    parentCode := "BS".toList, typeAccount := "A".toList
    stmtType := "BS".toList, nameEng := "NY".toList }

def exG : List Account := [exGX, exGY]

/-- A root account whose code contains the path separator. -/
def exC1 : List Account :=
  [{ order := some 1, code := "A | B".toList, name := "n".toList
     parentCode := "BS".toList, typeAccount := "A".toList
     stmtType := "BS".toList, nameEng := "n".toList }]

/-- An account whose code equals the root marker and whose parent is the
root marker. -/
def exC4 : List Account :=
  [{ order := some 1, code := "BS".toList, name := "n".toList
     parentCode := "BS".toList, typeAccount := "A".toList
     stmtType := "BS".toList, nameEng := "n".toList }]

/-- A root account whose code is the empty string. -/
def exC5 : List Account :=
  [{ order := some 1, code := "".toList, name := "n".toList
     parentCode := "BS".toList, typeAccount := "A".toList
     stmtType := "BS".toList, nameEng := "n".toList }]

/-- The first row of the enriched output of the reference scenario. -/
def exRow : Out := (transformCoa exW).headD default

/-- The first row of the flattener's output of the reference scenario. -/
def exFlatRow : Flat :=
  (flattenHierarchy (buildHierarchy (createCoaTemplateTemp exW))).headD default

/-- The ranked rows of the reference scenario, written out. -/
def exWR1 : Ranked :=
  { order := 100, rankStr := skey 1, code := "A1".toList, name := "NameA1".toList
    parentCode := "BS".toList, typeAccount := "A".toList
    stmtType := "BS".toList, nameEng := "NameA1".toList }

def exWR2 : Ranked :=
  { order := 100, rankStr := skey 1, code := "A2".toList, name := "NameA2".toList
    parentCode := "A1".toList, typeAccount := "A".toList
    stmtType := "BS".toList, nameEng := "NameA2".toList }

/-- An example business subunit table. -/
def exSubs : List Subunit :=
  [{ pk := "KBC".toList }, { pk := "OTH".toList }]

/-! ### Library-level and structural lemmas about the embedded pipeline -/

theorem splitSepFuel_irrel (sep : List Char) :
    ∀ fuel fuel' s, s.length < fuel → s.length < fuel' →
      splitSepFuel fuel sep s = splitSepFuel fuel' sep s := by
  intro fuel
  induction fuel with
  | zero => intro fuel' s h _; omega
  | succ fuel ih =>
    intro fuel' s h h'
    rcases fuel' with _ | fuel'
    · omega
    rcases s with _ | ⟨c, rest⟩
    · rfl
    simp only [splitSepFuel]
    simp only [List.length_cons] at h h'
    by_cases hc : (sep.isPrefixOf (c :: rest) && !sep.isEmpty) = true
    · rw [if_pos hc, if_pos hc]
      have hsep : 1 ≤ sep.length := by
        rcases sep with _ | _
        · simp at hc
        · simp
      have hdrop : ((c :: rest).drop sep.length).length ≤ rest.length := by
        simp only [List.length_drop, List.length_cons]
        omega
      rw [ih fuel' _ (by omega) (by omega)]
    · rw [if_neg hc, if_neg hc]
      rw [ih fuel' rest (by omega) (by omega)]

theorem splitSepFuel_ne_nil (fuel : Nat) (sep s : List Char) :
    splitSepFuel fuel sep s ≠ [] := by
  rcases fuel with _ | fuel
  · simp [splitSepFuel]
  rcases s with _ | ⟨c, rest⟩
  · simp [splitSepFuel]
  simp only [splitSepFuel]
  by_cases hc : (sep.isPrefixOf (c :: rest) && !sep.isEmpty) = true
  · rw [if_pos hc]
    simp
  · rw [if_neg hc]
    rcases splitSepFuel fuel sep rest with _ | ⟨h, t⟩ <;> simp

theorem splitSep_ne_nil (sep s : List Char) : splitSep sep s ≠ [] :=
  splitSepFuel_ne_nil _ _ _

theorem splitSep_cons_pos {sep : List Char} {c : Char} {rest : List Char}
    (hpre : (sep.isPrefixOf (c :: rest) && !sep.isEmpty) = true) :
    splitSep sep (c :: rest) = [] :: splitSep sep ((c :: rest).drop sep.length) := by
  show (if (sep.isPrefixOf (c :: rest) && !sep.isEmpty) = true then
          [] :: splitSepFuel (rest.length + 1) sep ((c :: rest).drop sep.length)
        else match splitSepFuel (rest.length + 1) sep rest with
          | [] => [[c]]
          | h :: t => (c :: h) :: t)
      = [] :: splitSep sep ((c :: rest).drop sep.length)
  rw [if_pos hpre]
  have hsep : 1 ≤ sep.length := by
    rcases sep with _ | _
    · simp at hpre
    · simp
  have hdrop : ((c :: rest).drop sep.length).length ≤ rest.length := by
    simp only [List.length_drop, List.length_cons]
    omega
  rw [splitSepFuel_irrel sep _ _ _ (by omega) (Nat.lt_succ_self _)]
  rfl

theorem splitSep_cons_neg {sep : List Char} {c : Char} {rest : List Char}
    (hpre : (sep.isPrefixOf (c :: rest) && !sep.isEmpty) = false)
    {h : List Char} {t : List (List Char)} (hs : splitSep sep rest = h :: t) :
    splitSep sep (c :: rest) = (c :: h) :: t := by
  show (if (sep.isPrefixOf (c :: rest) && !sep.isEmpty) = true then
          [] :: splitSepFuel (rest.length + 1) sep ((c :: rest).drop sep.length)
        else match splitSepFuel (rest.length + 1) sep rest with
          | [] => [[c]]
          | h :: t => (c :: h) :: t)
      = (c :: h) :: t
  rw [if_neg (by rw [hpre]; exact Bool.false_ne_true)]
  rw [show splitSepFuel (rest.length + 1) sep rest = splitSep sep rest from rfl, hs]

theorem mem_of_sep_isPrefixOf {s : List Char}
    (h : sepChars.isPrefixOf s = true) : '|' ∈ s := by
  have hp : sepChars <+: s := List.isPrefixOf_iff_prefix.mp h
  exact hp.subset (by decide)

/-- Splitting a pipe-free string returns the single segment. -/
theorem splitSep_of_not_pipe {s : List Char} (h : '|' ∉ s) :
    splitSep sepChars s = [s] := by
  induction s with
  | nil => rfl
  | cons c rest ih =>
    have hrest : '|' ∉ rest := fun hm => h (List.mem_cons_of_mem _ hm)
    have hpre : (sepChars.isPrefixOf (c :: rest) && !sepChars.isEmpty) = false := by
      rcases hp : sepChars.isPrefixOf (c :: rest) with _ | _
      · simp
      · exact absurd (mem_of_sep_isPrefixOf hp) h
    exact splitSep_cons_neg hpre (ih hrest)

/-- Splitting a concatenation whose left part is pipe-free peels off exactly
that left part. -/
theorem splitSep_append {a : List Char} (b : List Char) (h : '|' ∉ a) :
    splitSep sepChars (a ++ sepChars ++ b) = a :: splitSep sepChars b := by
  induction a with
  | nil =>
    have hpre : (sepChars.isPrefixOf (sepChars ++ b) && !sepChars.isEmpty) = true := by
      have h1 : sepChars.isPrefixOf (sepChars ++ b) = true :=
        List.isPrefixOf_iff_prefix.mpr ⟨b, rfl⟩
      rw [h1]
      rfl
    rcases hsep : sepChars ++ b with _ | ⟨c, rest⟩
    · exact absurd hsep (by simp [sepChars])
    · rw [List.nil_append, hsep, splitSep_cons_pos (hsep ▸ hpre)]
      have hdrop : (c :: rest).drop sepChars.length = b := by
        rw [← hsep]
        simp [sepChars]
      rw [hdrop]
  | cons c a' ih =>
    have ha' : '|' ∉ a' := fun hm => h (List.mem_cons_of_mem _ hm)
    have hpre : (sepChars.isPrefixOf (c :: (a' ++ sepChars ++ b)) && !sepChars.isEmpty) = false := by
      rcases hp : sepChars.isPrefixOf (c :: (a' ++ sepChars ++ b)) with _ | _
      · simp
      · exfalso
        rcases a' with _ | ⟨d, a''⟩
        · simp only [List.nil_append] at hp
          simp [sepChars, List.isPrefixOf] at hp
        · have h2 : d = '|' := by
            simp only [sepChars, List.isPrefixOf, List.cons_append] at hp
            simp at hp
            exact hp.2.1.symm
          exact ha' (h2 ▸ List.mem_cons_self d a'')
    have hrec := ih ha'
    have hshape : (c :: a') ++ sepChars ++ b = c :: (a' ++ sepChars ++ b) := by simp
    rw [hshape, splitSep_cons_neg hpre hrec]

theorem joinSep_snoc {xs : List (List Char)} (hne : xs ≠ []) (y : List Char) :
    joinSep (xs ++ [y]) = joinSep xs ++ sepChars ++ y := by
  induction xs with
  | nil => exact absurd rfl hne
  | cons x rest ih =>
    rcases rest with _ | ⟨z, rest'⟩
    · simp [joinSep]
    · have h2 := ih (List.cons_ne_nil z rest')
      calc joinSep ((x :: z :: rest') ++ [y])
          = x ++ sepChars ++ joinSep ((z :: rest') ++ [y]) := rfl
        _ = x ++ sepChars ++ (joinSep (z :: rest') ++ sepChars ++ y) := by rw [h2]
        _ = joinSep (x :: z :: rest') ++ sepChars ++ y := by
            simp [joinSep, List.append_assoc]

/-- Splitting the separator-join of pipe-free segments recovers the segments. -/
theorem splitSep_joinSep {xs : List (List Char)} (hne : xs ≠ [])
    (h : ∀ x ∈ xs, '|' ∉ x) : splitSep sepChars (joinSep xs) = xs := by
  induction xs with
  | nil => exact absurd rfl hne
  | cons x rest ih =>
    rcases rest with _ | ⟨y, rest'⟩
    · exact splitSep_of_not_pipe (h x (List.mem_cons_self x []))
    · have hx : '|' ∉ x := h x (List.mem_cons_self _ _)
      have hrest : ∀ z ∈ y :: rest', '|' ∉ z := fun z hz =>
        h z (List.mem_cons_of_mem _ hz)
      rw [show joinSep (x :: y :: rest') = x ++ sepChars ++ joinSep (y :: rest') from rfl,
        splitSep_append _ hx, ih (by simp) hrest]

theorem chainOk_snoc {temp : List Ranked} {l : List Ranked} {p a : Ranked}
    (hl : chainOk temp l = true) (hlast : l.getLast? = some p)
    (ha : a ∈ temp) (hpc : a.parentCode = p.code) :
    chainOk temp (l ++ [a]) = true := by
  induction l with
  | nil => simp [chainOk] at hl
  | cons x rest ih =>
    rcases rest with _ | ⟨y, rest'⟩
    · simp only [List.getLast?_singleton, Option.some.injEq] at hlast
      subst hlast
      simp only [List.singleton_append, chainOk]
      simp only [chainOk] at hl
      simp [hpc, ha, List.elem_iff.mp hl]
    · simp only [chainOk, Bool.and_eq_true] at hl
      obtain ⟨⟨hx, hlink⟩, hrest⟩ := hl
      have hlast' : (y :: rest').getLast? = some p := by
        rw [← hlast]
        simp [List.getLast?_cons_cons]
      have := ih hrest hlast'
      simp only [List.cons_append, chainOk, Bool.and_eq_true] at this ⊢
      exact ⟨⟨hx, hlink⟩, this⟩

theorem rootedChain_snoc {temp : List Ranked} {l : List Ranked} {p a : Ranked}
    (hl : rootedChain temp l = true) (hlast : l.getLast? = some p)
    (ha : a ∈ temp) (hpc : a.parentCode = p.code) :
    rootedChain temp (l ++ [a]) = true := by
  simp only [rootedChain, Bool.and_eq_true] at hl ⊢
  obtain ⟨hchain, hhead⟩ := hl
  refine ⟨chainOk_snoc hchain hlast ha hpc, ?_⟩
  rcases l with _ | ⟨x, rest⟩
  · simp [chainOk] at hchain
  · simpa using hhead

theorem childStep_nil (temp : List Ranked) : childStep temp [] = [] := by
  simp [childStep]

theorem iterChild_shift (temp : List Ranked) :
    ∀ j cur, iterChild temp (j + 1) cur = iterChild temp j (childStep temp cur) := by
  intro j
  induction j with
  | zero => intro cur; rfl
  | succ j ih =>
    intro cur
    show childStep temp (iterChild temp (j + 1) cur) = _
    rw [ih cur]
    rfl

theorem iterChild_nil (temp : List Ranked) : ∀ j, iterChild temp j [] = [] := by
  intro j
  induction j with
  | zero => rfl
  | succ j ih => show childStep temp (iterChild temp j []) = []; rw [ih, childStep_nil]

theorem placedAt_eq_iterChild (temp : List Ranked) :
    ∀ k, placedAt temp k = iterChild temp k (rootNodes temp) := by
  intro k
  induction k with
  | zero => rfl
  | succ k ih => show childStep temp (placedAt temp k) = _; rw [ih]; rfl

theorem buildLevels_flatten (temp : List Ranked) :
    ∀ fuel cur, (buildLevels temp fuel cur).flatten =
      ((List.range fuel).map (fun j => iterChild temp (j + 1) cur)).flatten := by
  intro fuel
  induction fuel with
  | zero => intro cur; simp [buildLevels]
  | succ fuel ih =>
    intro cur
    by_cases hch : (childStep temp cur).isEmpty
    · have hnil : childStep temp cur = [] := List.isEmpty_iff.mp hch
      rw [buildLevels]
      simp only [hch, if_pos, List.flatten_nil]
      symm
      rw [List.flatten_eq_nil_iff]
      intro l hl
      simp only [List.mem_map, List.mem_range] at hl
      obtain ⟨j, -, rfl⟩ := hl
      rw [iterChild_shift, hnil, iterChild_nil]
    · rw [buildLevels]
      simp only [hch, if_neg, Bool.false_eq_true, not_false_eq_true,
        List.flatten_cons]
      rw [ih (childStep temp cur)]
      rw [List.range_succ_eq_map, List.map_cons, List.flatten_cons, List.map_map]
      congr 2
      apply List.map_congr_left
      intro j hj
      simp only [Function.comp]
      exact (iterChild_shift temp (j + 1) cur).symm

/-- `_build_hierarchy` output is the concatenation of the 11 depth slices
(anchor plus ten expansion levels); the early break on an empty level drops
only empty slices. -/
theorem buildHierarchy_eq (temp : List Ranked) :
    buildHierarchy temp = ((List.range 11).map (placedAt temp)).flatten := by
  have h11 : ((List.range 11).map (placedAt temp)).flatten
      = placedAt temp 0 ++ ((List.range 10).map (fun j => placedAt temp (j + 1))).flatten := by
    rw [List.range_succ_eq_map, List.map_cons, List.flatten_cons, List.map_map]
    rfl
  rw [h11]
  show (rootNodes temp :: buildLevels temp 10 (rootNodes temp)).flatten = _
  rw [List.flatten_cons, buildLevels_flatten]
  have hcongr : List.map (fun j => iterChild temp (j + 1) (rootNodes temp)) (List.range 10)
      = List.map (fun j => placedAt temp (j + 1)) (List.range 10) := by
    apply List.map_congr_left
    intro j hj
    rw [placedAt_eq_iterChild]
  rw [hcongr]
  rfl

/-! ### Provenance and transport lemmas -/

/-- Every ranked row comes from an input account whose order is a valid
number; all its non-derived columns are copied from that account. -/
theorem mem_createCoaTemplateTemp {input : List Account} {r : Ranked}
    (hr : r ∈ createCoaTemplateTemp input) :
    (∃ a ∈ input, a.order = some r.order ∧ r.code = a.code ∧ r.name = a.name ∧
      r.parentCode = a.parentCode ∧ r.typeAccount = a.typeAccount ∧
      r.stmtType = a.stmtType ∧ r.nameEng = a.nameEng) ∧ ∃ k, r.rankStr = skey k := by
  simp only [createCoaTemplateTemp, List.mem_map] at hr
  obtain ⟨⟨i, a⟩, hmem, rfl⟩ := hr
  have ha : a ∈ input.filter (fun a => a.order.isSome) := by
    have := List.mem_enum_iff_getElem?.mp hmem
    exact List.getElem?_mem this
  rw [List.mem_filter] at ha
  obtain ⟨hain, hsome⟩ := ha
  rcases hv : a.order with _ | v
  · rw [hv] at hsome; simp at hsome
  · exact ⟨⟨a, hain, by simp [ord0, hv], rfl, rfl, rfl, rfl, rfl, rfl⟩,
      rankIn (input.filter (fun x => x.order.isSome)) i a, rfl⟩

theorem chainOk_mem {temp : List Ranked} :
    ∀ {l : List Ranked}, chainOk temp l = true → ∀ x ∈ l, x ∈ temp := by
  intro l
  induction l with
  | nil => intro h x hx; simp at hx
  | cons a rest ih =>
    intro h x hx
    rcases rest with _ | ⟨b, rest'⟩
    · simp only [chainOk] at h
      simp only [List.mem_singleton] at hx
      subst hx
      exact List.elem_iff.mp h
    · simp only [chainOk, Bool.and_eq_true] at h
      obtain ⟨⟨ha, -⟩, hrest⟩ := h
      rcases List.mem_cons.mp hx with rfl | hx'
      · exact List.elem_iff.mp ha
      · exact ih hrest x hx'

theorem mem_buildHierarchy_iff {temp : List Ranked} {n : Node} :
    n ∈ buildHierarchy temp ↔ ∃ k, k ≤ 10 ∧ n ∈ placedAt temp k := by
  rw [buildHierarchy_eq, List.mem_flatten]
  constructor
  · rintro ⟨l, hl, hn⟩
    simp only [List.mem_map, List.mem_range] at hl
    obtain ⟨k, hk, rfl⟩ := hl
    exact ⟨k, by omega, hn⟩
  · rintro ⟨k, hk, hn⟩
    exact ⟨placedAt temp k, by
      simp only [List.mem_map, List.mem_range]
      exact ⟨k, by omega, rfl⟩, hn⟩

/-- Membership in the flattener's output. -/
theorem mem_flattenHierarchy {h : List Node} {x : Flat} :
    x ∈ flattenHierarchy h ↔ ∃ n ∈ h, x = mkFlat h n := by
  unfold flattenHierarchy
  rw [(List.perm_insertionSort _ _).mem_iff, List.mem_map]
  constructor
  · rintro ⟨n, hn, rfl⟩; exact ⟨n, hn, rfl⟩
  · rintro ⟨n, hn, rfl⟩; exact ⟨n, hn, rfl⟩

/-- Membership in the leaf classifier's output. -/
theorem mem_identifyLeafs {l : List Flat} {y : Out} :
    y ∈ identifyLeafs l ↔ ∃ x ∈ l, y = mkOut (l.map (fun x => x.parentCode)) x := by
  unfold identifyLeafs
  rw [(List.perm_insertionSort _ _).mem_iff, List.mem_map]
  constructor
  · rintro ⟨x, hx, rfl⟩; exact ⟨x, hx, rfl⟩
  · rintro ⟨x, hx, rfl⟩; exact ⟨x, hx, rfl⟩

theorem flatten_parentCodes_perm (h : List Node) :
    List.Perm ((flattenHierarchy h).map (fun x => x.parentCode)) (h.map (fun n => n.parentCode)) := by
  unfold flattenHierarchy
  refine ((List.perm_insertionSort _ _).map _).trans ?_
  rw [List.map_map]
  exact List.Perm.refl _

theorem identify_parentCodes_perm (l : List Flat) :
    List.Perm ((identifyLeafs l).map (fun y => y.parentCode)) (l.map (fun x => x.parentCode)) := by
  unfold identifyLeafs
  refine ((List.perm_insertionSort _ _).map _).trans ?_
  rw [List.map_map]
  exact List.Perm.refl _

/-- Membership in the full pipeline's output, phrased over the placed nodes. -/
theorem mem_transformCoa {input : List Account} {y : Out} :
    y ∈ transformCoa input ↔
      ∃ n ∈ buildHierarchy (createCoaTemplateTemp input),
        y = mkOut ((flattenHierarchy (buildHierarchy (createCoaTemplateTemp input))).map
              (fun x => x.parentCode))
            (mkFlat (buildHierarchy (createCoaTemplateTemp input)) n) := by
  unfold transformCoa
  rw [mem_identifyLeafs]
  constructor
  · rintro ⟨x, hx, rfl⟩
    rw [mem_flattenHierarchy] at hx
    obtain ⟨n, hn, rfl⟩ := hx
    exact ⟨n, hn, rfl⟩
  · rintro ⟨n, hn, rfl⟩
    exact ⟨_, mem_flattenHierarchy.mpr ⟨n, hn, rfl⟩, rfl⟩

/-- The parent codes present in the final output are those of the placed
nodes. -/
theorem out_parentCodes_perm (input : List Account) :
    List.Perm ((transformCoa input).map (fun y => y.parentCode))
      ((buildHierarchy (createCoaTemplateTemp input)).map (fun n => n.parentCode)) := by
  unfold transformCoa
  refine (identify_parentCodes_perm _).trans ?_
  exact flatten_parentCodes_perm _

/-- The codes present in the final output are those of the placed nodes. -/
theorem out_codes_perm (input : List Account) :
    List.Perm ((transformCoa input).map (fun y => y.code))
      ((buildHierarchy (createCoaTemplateTemp input)).map (fun n => n.code)) := by
  unfold transformCoa identifyLeafs
  refine ((List.perm_insertionSort _ _).map _).trans ?_
  rw [List.map_map]
  show List.Perm ((flattenHierarchy _).map _) _
  unfold flattenHierarchy
  refine ((List.perm_insertionSort _ _).map _).trans ?_
  rw [List.map_map]
  exact List.Perm.refl _

/-! ### The rank string is made of decimal digits -/

theorem natToCharsFuel_isDigit :
    ∀ fuel n, ∀ c ∈ natToCharsFuel fuel n, c.isDigit = true := by
  intro fuel
  induction fuel with
  | zero => intro n c hc; simp [natToCharsFuel] at hc
  | succ fuel ih =>
    intro n c hc
    simp only [natToCharsFuel] at hc
    by_cases h : n < 10
    · rw [if_pos h] at hc
      simp only [List.mem_singleton] at hc
      subst hc
      have hb : ∀ m, m < 10 → (Char.ofNat (48 + m)).isDigit = true := by decide
      exact hb n h
    · rw [if_neg h] at hc
      rcases List.mem_append.mp hc with hc' | hc'
      · exact ih (n / 10) c hc'
      · simp only [List.mem_singleton] at hc'
        subst hc'
        have hb : ∀ m, m < 10 → (Char.ofNat (48 + m)).isDigit = true := by decide
        exact hb (n % 10) (Nat.mod_lt _ (by omega))

theorem natToChars_isDigit (n : Nat) : ∀ c ∈ natToChars n, c.isDigit = true :=
  natToCharsFuel_isDigit (n + 1) n

theorem skey_isDigit (n : Nat) : ∀ c ∈ skey n, c.isDigit = true := by
  intro c hc
  rcases List.mem_append.mp hc with hc' | hc'
  · have := List.eq_of_mem_replicate hc'
    subst this
    decide
  · exact natToChars_isDigit n c hc'

theorem skey_not_pipe (n : Nat) : '|' ∉ skey n := by
  intro hc
  have := skey_isDigit n '|' hc
  simp at this

theorem natToChars_ne_nil (n : Nat) : natToChars n ≠ [] := by
  show natToCharsFuel (n + 1) n ≠ []
  simp only [natToCharsFuel]
  by_cases h : n < 10
  · rw [if_pos h]; simp
  · rw [if_neg h]; simp

theorem skey_length (n : Nat) : 2 ≤ (skey n).length := by
  show 2 ≤ (zfill2 (natToChars n)).length
  rw [zfill2, List.length_append, List.length_replicate]
  omega

/-- The nodes placed at a given depth: level, paths, and an explicit rooted
ancestor chain ending at the node's own row. -/
theorem placedAt_chain (temp : List Ranked) :
    ∀ k, ∀ n ∈ placedAt temp k,
      n.level = k ∧ ∃ l, rootedChain temp l = true ∧ l ≠ [] ∧
        l.getLast? = some n.toRanked ∧ l.length = k + 1 ∧
        n.codeFull = codePath l ∧ n.nameFull = namePath l := by
  intro k
  induction k with
  | zero =>
    intro n hn
    simp only [placedAt, rootNodes, List.mem_map, List.mem_filter] at hn
    obtain ⟨a, ⟨hmem, hroot⟩, rfl⟩ := hn
    refine ⟨rfl, [a], ?_, by simp, by simp [Node.toRanked, mkRoot], by simp,
      rfl, rfl⟩
    simp [rootedChain, chainOk, hmem, hroot]
  | succ k ih =>
    intro n hn
    simp only [placedAt, childStep, List.mem_flatMap, List.mem_map,
      List.mem_filter] at hn
    obtain ⟨a, hmem, p, ⟨hp, hpc⟩, rfl⟩ := hn
    obtain ⟨hlevel, l, hchain, hne, hlast, hlen, hcode, hname⟩ := ih p hp
    have hpc' : a.parentCode = p.code := (beq_iff_eq.mp hpc).symm
    refine ⟨by simp [mkChild, hlevel], l ++ [a],
      rootedChain_snoc hchain hlast hmem hpc', by simp,
      by simp [List.getLast?_concat, Node.toRanked, mkChild], by simp [hlen],
      ?_, ?_⟩
    · simp only [codePath, List.map_append, List.map_cons, List.map_nil]
      rw [joinSep_snoc (by simpa using hne)]
      simp only [mkChild, hcode, codePath]
    · simp only [namePath, List.map_append, List.map_cons, List.map_nil]
      rw [joinSep_snoc (by simpa using hne)]
      simp only [mkChild, hname, namePath]

/-! ### The ranking is a bijection onto 1..N within each group -/

theorem keyLt_irrefl (x : Int × Nat) : keyLt x x = false := by
  simp [keyLt]

theorem keyLt_trans {x y z : Int × Nat} (h1 : keyLt x y = true)
    (h2 : keyLt y z = true) : keyLt x z = true := by
  simp only [keyLt, Bool.or_eq_true, Bool.and_eq_true, decide_eq_true_eq] at h1 h2 ⊢
  omega

theorem keyLt_total {x y : Int × Nat} (h : x.2 ≠ y.2) :
    keyLt x y = true ∨ keyLt y x = true := by
  simp only [keyLt, Bool.or_eq_true, Bool.and_eq_true, decide_eq_true_eq]
  omega

theorem countP_lt_countP {α : Type} {l : List α} {p q : α → Bool}
    (himp : ∀ x ∈ l, p x = true → q x = true) {w : α} (hw : w ∈ l)
    (hpw : p w = false) (hqw : q w = true) : l.countP p < l.countP q := by
  induction l with
  | nil => simp at hw
  | cons x rest ih =>
    rcases List.mem_cons.mp hw with rfl | hw'
    · have hle : rest.countP p ≤ rest.countP q :=
        List.countP_mono_left (fun a ha hpa => himp a (List.mem_cons_of_mem _ ha) hpa)
      have hnpw : ¬p w = true := by simp [hpw]
      rw [List.countP_cons_of_neg p _ hnpw, List.countP_cons_of_pos q _ hqw]
      omega
    · have hlt : rest.countP p < rest.countP q :=
        ih (fun a ha hpa => himp a (List.mem_cons_of_mem _ ha) hpa) hw'
      have hx : p x = true → q x = true := himp x (List.mem_cons_self _ _)
      rcases hpx : p x with _ | _
      · have hnpx : ¬p x = true := by simp [hpx]
        rw [List.countP_cons_of_neg p _ hnpx]
        rcases hqx : q x with _ | _
        · have hnqx : ¬q x = true := by simp [hqx]
          rw [List.countP_cons_of_neg q _ hnqx]
          exact hlt
        · rw [List.countP_cons_of_pos q _ hqx]
          omega
      · rw [List.countP_cons_of_pos p _ hpx, List.countP_cons_of_pos q _ (hx hpx)]
        omega

/-- The rank values `1 + #\x7b strictly smaller keys \x7d` computed over a list of
pairwise distinct keys are a permutation of `1..N`. -/
theorem rank_values_perm (ks : List (Int × Nat))
    (hnd : (ks.map Prod.snd).Nodup) :
    List.Perm (ks.map (fun x => 1 + ks.countP (fun y => keyLt y x)))
      (List.range' 1 ks.length) := by
  have hlt : ∀ i : Fin ks.length, ks.countP (fun y => keyLt y (ks.get i)) < ks.length := by
    intro i
    refine Nat.lt_of_le_of_ne (List.countP_le_length _) (fun hc => ?_)
    have hall := List.countP_eq_length.mp hc (ks.get i) (List.get_mem ks i.1 i.2)
    rw [keyLt_irrefl] at hall
    exact absurd hall (by simp)
  let e : Fin ks.length → Fin ks.length := fun i =>
    ⟨ks.countP (fun y => keyLt y (ks.get i)), hlt i⟩
  have hsnd : ∀ i j : Fin ks.length, i ≠ j → (ks.get i).2 ≠ (ks.get j).2 := by
    intro i j hij hsnd
    have hcast : ∀ m : Fin ks.length, (ks.get m).2 = (ks.map Prod.snd).get (m.cast (by simp)) := by
      intro m
      simp [List.get_map]
    rw [hcast i, hcast j] at hsnd
    have hcc := (hnd.get_inj_iff).mp hsnd
    apply hij
    have hval : (i : Nat) = (j : Nat) := by
      have h2 := congrArg Fin.val hcc
      simpa using h2
    exact Fin.ext hval
  have hmono : ∀ i j : Fin ks.length, keyLt (ks.get i) (ks.get j) = true →
      (e i : Nat) < (e j : Nat) := by
    intro i j hij
    refine countP_lt_countP (fun y _ hy => keyLt_trans hy hij) (List.get_mem ks i.1 i.2) ?_ hij
    exact keyLt_irrefl _
  have hinj : Function.Injective e := by
    intro i j hij
    by_contra hne
    rcases keyLt_total (hsnd i j hne) with h | h
    · exact absurd (congrArg Fin.val hij) (Nat.ne_of_lt (hmono i j h))
    · exact absurd (congrArg Fin.val hij).symm (Nat.ne_of_lt (hmono j i h))
  have hbij : Function.Bijective e := (Finite.injective_iff_bijective).mp hinj
  have hperm : List.Perm ((List.finRange ks.length).map (Equiv.ofBijective e hbij))
      (List.finRange ks.length) := Equiv.Perm.map_finRange_perm (Equiv.ofBijective e hbij)
  have hrw : ks.map (fun x => 1 + ks.countP (fun y => keyLt y x))
      = (List.finRange ks.length).map (fun i => 1 + (e i : Nat)) := by
    rw [show (List.finRange ks.length).map (fun i => 1 + (e i : Nat))
        = (List.finRange ks.length).map ((fun x => 1 + ks.countP (fun y => keyLt y x)) ∘ ks.get)
        from rfl]
    rw [← List.map_map, List.finRange_map_get]
  rw [hrw]
  have hfinal : List.Perm ((List.finRange ks.length).map (fun i => 1 + (e i : Nat)))
      ((List.finRange ks.length).map (fun v : Fin ks.length => 1 + (v : Nat))) := by
    have hstep : (List.finRange ks.length).map (fun i => 1 + (e i : Nat))
        = ((List.finRange ks.length).map (Equiv.ofBijective e hbij)).map
            (fun v : Fin ks.length => 1 + (v : Nat)) := by
      rw [List.map_map]
      rfl
    rw [hstep]
    exact hperm.map _
  refine hfinal.trans ?_
  rw [show (List.finRange ks.length).map (fun v : Fin ks.length => 1 + (v : Nat))
      = ((List.finRange ks.length).map Fin.val).map (fun m => 1 + m) by
    rw [List.map_map]; rfl]
  rw [List.map_coe_finRange, List.range'_eq_map_range]

theorem sameGroup_trans {x a b : Account} (h1 : sameGroup x a = true)
    (h2 : sameGroup a b = true) : sameGroup x b = true := by
  simp only [sameGroup, Bool.and_eq_true, beq_iff_eq] at h1 h2 ⊢
  exact ⟨h1.1.trans h2.1, h1.2.trans h2.2⟩

/-- Ranks are assigned in strictly ascending key order inside a group:
smaller (order, position) key means smaller rank. -/
theorem rankIn_strict_mono {f : List Account} {i j : Nat} {a b : Account}
    (hia : (i, a) ∈ f.enum) (hg : sameGroup a b = true)
    (hk : keyLt (ord0 a, i) (ord0 b, j) = true) :
    rankIn f i a < rankIn f j b := by
  have hcount :
      f.enum.countP (fun jb => sameGroup jb.2 a && keyLt (ord0 jb.2, jb.1) (ord0 a, i))
        < f.enum.countP (fun jb => sameGroup jb.2 b && keyLt (ord0 jb.2, jb.1) (ord0 b, j)) := by
    refine countP_lt_countP ?_ hia ?_ ?_
    · intro x hx hpx
      simp only [Bool.and_eq_true] at hpx ⊢
      exact ⟨sameGroup_trans hpx.1 hg, keyLt_trans hpx.2 hk⟩
    · simp [keyLt_irrefl]
    · simp only [Bool.and_eq_true]
      exact ⟨hg, hk⟩
  simpa [rankIn] using Nat.add_lt_add_left hcount 1

/-- Within one (statement type, parent code) group of the ranker's output,
the rank strings are exactly `skey` applied to a permutation of 1..N. -/
theorem group_rankStr_perm (input : List Account) (st pc : List Char) :
    List.Perm
      (((createCoaTemplateTemp input).filter
        (fun r => r.stmtType == st && r.parentCode == pc)).map (fun r => r.rankStr))
      ((List.range' 1 (((createCoaTemplateTemp input).filter
        (fun r => r.stmtType == st && r.parentCode == pc)).length)).map skey) := by
  have hdef : createCoaTemplateTemp input
      = (input.filter (fun a => a.order.isSome)).enum.map (fun ia =>
        ({ order := ord0 ia.2
           rankStr := skey (rankIn (input.filter (fun a => a.order.isSome)) ia.1 ia.2)
           code := ia.2.code, name := ia.2.name, parentCode := ia.2.parentCode
           typeAccount := ia.2.typeAccount, stmtType := ia.2.stmtType
           nameEng := ia.2.nameEng } : Ranked)) := rfl
  rw [hdef, List.filter_map, List.map_map, List.length_map]
  have hcomp :
      ((fun r : Ranked => r.rankStr) ∘ (fun ia : Nat × Account =>
        ({ order := ord0 ia.2
           rankStr := skey (rankIn (input.filter (fun a => a.order.isSome)) ia.1 ia.2)
           code := ia.2.code, name := ia.2.name, parentCode := ia.2.parentCode
           typeAccount := ia.2.typeAccount, stmtType := ia.2.stmtType
           nameEng := ia.2.nameEng } : Ranked)))
      = fun ia : Nat × Account =>
          skey (rankIn (input.filter (fun a => a.order.isSome)) ia.1 ia.2) := rfl
  have hcomp2 :
      ((fun r : Ranked => r.stmtType == st && r.parentCode == pc) ∘ (fun ia : Nat × Account =>
        ({ order := ord0 ia.2
           rankStr := skey (rankIn (input.filter (fun a => a.order.isSome)) ia.1 ia.2)
           code := ia.2.code, name := ia.2.name, parentCode := ia.2.parentCode
           typeAccount := ia.2.typeAccount, stmtType := ia.2.stmtType
           nameEng := ia.2.nameEng } : Ranked)))
      = fun ia : Nat × Account => ia.2.stmtType == st && ia.2.parentCode == pc := rfl
  rw [hcomp, hcomp2]
  have hrank : ∀ ia ∈ (input.filter (fun a => a.order.isSome)).enum.filter
      (fun ia : Nat × Account => ia.2.stmtType == st && ia.2.parentCode == pc),
      rankIn (input.filter (fun a => a.order.isSome)) ia.1 ia.2
        = 1 + ((input.filter (fun a => a.order.isSome)).enum.filter
            (fun ia : Nat × Account => ia.2.stmtType == st && ia.2.parentCode == pc)).countP
          (fun jb => keyLt (ord0 jb.2, jb.1) (ord0 ia.2, ia.1)) := by
    intro ia hia
    rw [List.mem_filter, Bool.and_eq_true, beq_iff_eq, beq_iff_eq] at hia
    obtain ⟨hmem, hst, hpc⟩ := hia
    show 1 + _ = 1 + _
    congr 1
    rw [List.countP_filter]
    apply List.countP_congr
    intro jb hjb
    simp only [sameGroup, Bool.and_eq_true, beq_iff_eq, hst, hpc]
    tauto
  rw [List.map_congr_left (fun ia hia => congrArg skey (hrank ia hia))]
  rw [show (fun ia : Nat × Account =>
      skey (1 + ((input.filter (fun a => a.order.isSome)).enum.filter
          (fun ia : Nat × Account => ia.2.stmtType == st && ia.2.parentCode == pc)).countP
        (fun jb => keyLt (ord0 jb.2, jb.1) (ord0 ia.2, ia.1))))
      = skey ∘ (fun ia : Nat × Account =>
        1 + ((input.filter (fun a => a.order.isSome)).enum.filter
          (fun ia : Nat × Account => ia.2.stmtType == st && ia.2.parentCode == pc)).countP
        (fun jb => keyLt (ord0 jb.2, jb.1) (ord0 ia.2, ia.1))) from rfl]
  rw [← List.map_map]
  apply List.Perm.map
  have hcnt : ∀ ia : Nat × Account,
      ((input.filter (fun a => a.order.isSome)).enum.filter
        (fun ia : Nat × Account => ia.2.stmtType == st && ia.2.parentCode == pc)).countP
        (fun jb => keyLt (ord0 jb.2, jb.1) (ord0 ia.2, ia.1))
      = (((input.filter (fun a => a.order.isSome)).enum.filter
          (fun ia : Nat × Account => ia.2.stmtType == st && ia.2.parentCode == pc)).map
          (fun ia : Nat × Account => (ord0 ia.2, ia.1))).countP
        (fun y => keyLt y (ord0 ia.2, ia.1)) := by
    intro ia
    rw [List.countP_map]
    rfl
  rw [List.map_congr_left (fun ia _ => congrArg (1 + ·) (hcnt ia))]
  rw [show (fun ia : Nat × Account =>
      1 + ((((input.filter (fun a => a.order.isSome)).enum.filter
          (fun ia : Nat × Account => ia.2.stmtType == st && ia.2.parentCode == pc)).map
          (fun ia : Nat × Account => (ord0 ia.2, ia.1))).countP
        (fun y => keyLt y (ord0 ia.2, ia.1))))
      = ((fun x : Int × Nat =>
          1 + ((((input.filter (fun a => a.order.isSome)).enum.filter
            (fun ia : Nat × Account => ia.2.stmtType == st && ia.2.parentCode == pc)).map
            (fun ia : Nat × Account => (ord0 ia.2, ia.1))).countP
          (fun y => keyLt y x))) ∘ (fun ia : Nat × Account => (ord0 ia.2, ia.1))) from rfl]
  rw [← List.map_map]
  have hlen : (((input.filter (fun a => a.order.isSome)).enum.filter
      (fun ia : Nat × Account => ia.2.stmtType == st && ia.2.parentCode == pc)).map
      (fun ia : Nat × Account => (ord0 ia.2, ia.1))).length
      = ((input.filter (fun a => a.order.isSome)).enum.filter
        (fun ia : Nat × Account => ia.2.stmtType == st && ia.2.parentCode == pc)).length :=
    List.length_map _ _
  rw [← hlen]
  apply rank_values_perm
  rw [List.map_map]
  have hsnd : (Prod.snd ∘ fun ia : Nat × Account => (ord0 ia.2, ia.1))
      = fun ia : Nat × Account => ia.1 := rfl
  rw [hsnd]
  have hsub : List.Sublist
      (((input.filter (fun a => a.order.isSome)).enum.filter
        (fun ia : Nat × Account => ia.2.stmtType == st && ia.2.parentCode == pc)).map
        (fun ia : Nat × Account => ia.1))
      ((input.filter (fun a => a.order.isSome)).enum.map Prod.fst) :=
    List.Sublist.map _ (List.filter_sublist _)
  exact (List.nodup_enum_map_fst _).sublist hsub

/-! ### Claim theorems -/

/-- C2: after the Hierarchy Ranker runs, accounts whose order is not a valid
number are absent (every kept row originates from an account with a numeric
order), within every (statement type, parent code) group the rank strings are
exactly `skey` of the contiguous sequence 1..N (2-digit zero-padded, wider and
untruncated for values of three or more digits), and ranks are assigned by
ascending numeric order with ties broken by first occurrence in the input. -/
theorem c2_rank_assignment (input : List Account) (st pc : List Char) :
    (∀ r ∈ createCoaTemplateTemp input,
      ∃ a ∈ input, a.order = some r.order ∧ r.code = a.code)
    ∧ List.Perm
        (((createCoaTemplateTemp input).filter
          (fun r => r.stmtType == st && r.parentCode == pc)).map (fun r => r.rankStr))
        ((List.range' 1 (((createCoaTemplateTemp input).filter
          (fun r => r.stmtType == st && r.parentCode == pc)).length)).map skey)
    ∧ (∀ i j a b, (i, a) ∈ (input.filter (fun x => x.order.isSome)).enum →
        (j, b) ∈ (input.filter (fun x => x.order.isSome)).enum →
        sameGroup a b = true → keyLt (ord0 a, i) (ord0 b, j) = true →
        rankIn (input.filter (fun x => x.order.isSome)) i a
          < rankIn (input.filter (fun x => x.order.isSome)) j b) := by
  refine ⟨?_, group_rankStr_perm input st pc, ?_⟩
  · intro r hr
    obtain ⟨⟨a, ha, h1, h2, -⟩, -⟩ := mem_createCoaTemplateTemp hr
    exact ⟨a, ha, h1, h2⟩
  · intro i j a b hia _hjb hg hk
    exact rankIn_strict_mono hia hg hk

/-- Witness for C2 at a concrete input: the sibling listed second but with
the smaller order receives the smaller rank. -/
theorem c2_rank_assignment_witness :
    rankIn (exG.filter (fun x => x.order.isSome)) 1 exGY
      < rankIn (exG.filter (fun x => x.order.isSome)) 0 exGX :=
  (c2_rank_assignment exG ("BS".toList) ("BS".toList)).2.2 1 0 exGY exGX
    (by decide) (by decide) (by decide) (by decide)

/-- C3: a final output row's leaf flag is 1 exactly when no row of the final
output has this row's code as its parent code. -/
theorem c3_is_leaf_iff (input : List Account) :
    ∀ y ∈ transformCoa input,
      (y.isLeaf = 1 ↔ ∀ m ∈ transformCoa input, m.parentCode ≠ y.code) := by
  intro y hy
  rw [mem_transformCoa] at hy
  obtain ⟨n, hn, rfl⟩ := hy
  have hmem_iff :
      (((flattenHierarchy (buildHierarchy (createCoaTemplateTemp input))).map
        (fun x => x.parentCode)).contains n.code = true)
      ↔ ∃ m ∈ transformCoa input, m.parentCode = n.code := by
    rw [List.elem_iff]
    constructor
    · intro hmemp
      have h1 := (flatten_parentCodes_perm
        (buildHierarchy (createCoaTemplateTemp input))).mem_iff.mp hmemp
      have h2 := (out_parentCodes_perm input).mem_iff.mpr h1
      obtain ⟨m, hm, hmp⟩ := List.mem_map.mp h2
      exact ⟨m, hm, hmp⟩
    · rintro ⟨m, hm, hmp⟩
      have h2 : n.code ∈ (transformCoa input).map (fun m => m.parentCode) :=
        List.mem_map.mpr ⟨m, hm, hmp⟩
      exact (flatten_parentCodes_perm _).mem_iff.mpr
        ((out_parentCodes_perm input).mem_iff.mp h2)
  by_cases hc : ((flattenHierarchy (buildHierarchy (createCoaTemplateTemp input))).map
      (fun x => x.parentCode)).contains n.code
  · rw [show (mkOut ((flattenHierarchy (buildHierarchy (createCoaTemplateTemp input))).map
        (fun x => x.parentCode)) (mkFlat (buildHierarchy (createCoaTemplateTemp input)) n)).isLeaf
      = if ((flattenHierarchy (buildHierarchy (createCoaTemplateTemp input))).map
          (fun x => x.parentCode)).contains n.code then 0 else 1 from rfl, if_pos hc]
    constructor
    · intro h01
      exact absurd h01 (by decide)
    · intro hall
      obtain ⟨m, hm, hmp⟩ := hmem_iff.mp hc
      exact absurd hmp (hall m hm)
  · rw [show (mkOut ((flattenHierarchy (buildHierarchy (createCoaTemplateTemp input))).map
        (fun x => x.parentCode)) (mkFlat (buildHierarchy (createCoaTemplateTemp input)) n)).isLeaf
      = if ((flattenHierarchy (buildHierarchy (createCoaTemplateTemp input))).map
          (fun x => x.parentCode)).contains n.code then 0 else 1 from rfl, if_neg hc]
    constructor
    · intro _ m hm hmp
      exact hc (hmem_iff.mpr ⟨m, hm, hmp⟩)
    · intro _
      rfl

/-- Witness for C3 at the reference scenario's first output row. -/
theorem c3_is_leaf_iff_witness :
    exRow.isLeaf = 1 ↔ ∀ m ∈ transformCoa exW, m.parentCode ≠ exRow.code :=
  c3_is_leaf_iff exW exRow (by decide)

/-- C8: the Subunit Materializer's output row count is the enriched row count
times the number of matching subunit rows, and zero matches give the empty
result with no error (the function is total). -/
theorem c8_subunit_cross_join (coaOutput : List Out) (businessUnitCode : List Char)
    (subunits : List Subunit) :
    (createBusinessSubunitCoa coaOutput businessUnitCode subunits).length
      = coaOutput.length * (subunits.filter (fun s => s.pk == businessUnitCode)).length
    ∧ ((subunits.filter (fun s => s.pk == businessUnitCode)).length = 0 →
        createBusinessSubunitCoa coaOutput businessUnitCode subunits = []) := by
  have key : ∀ (l : List Out) (g : List (List Char)),
      (l.flatMap (fun r => g.map (fun p => (p, r)))).length = l.length * g.length := by
    intro l g
    induction l with
    | nil => simp
    | cons r rest ih =>
      simp only [List.flatMap_cons, List.length_append, List.length_map, ih,
        List.length_cons]
      ring
  constructor
  · rw [show createBusinessSubunitCoa coaOutput businessUnitCode subunits
      = coaOutput.flatMap (fun r =>
          ((subunits.filter (fun s => s.pk == businessUnitCode)).map
            (fun s => s.pk)).map (fun p => (p, r))) from rfl, key, List.length_map]
  · intro h0
    have hfil : subunits.filter (fun s => s.pk == businessUnitCode) = [] :=
      List.length_eq_zero.mp h0
    rw [show createBusinessSubunitCoa coaOutput businessUnitCode subunits
      = coaOutput.flatMap (fun r =>
          ((subunits.filter (fun s => s.pk == businessUnitCode)).map
            (fun s => s.pk)).map (fun p => (p, r))) from rfl, hfil]
    simp

theorem getLevelValue_no_quote (p : List Char) (i lv : Nat) :
    '\"' ∉ getLevelValue p i lv := by
  intro hmem
  simp only [getLevelValue] at hmem
  split at hmem
  · have := (List.mem_filter.mp hmem).2
    simp at this
  · split at hmem
    · have := (List.mem_filter.mp hmem).2
      simp at this
    · simp at hmem

theorem joinSep_getLast_suffix {xs : List (List Char)} {y : List Char}
    (h : xs.getLast? = some y) : ∃ t, joinSep xs = t ++ y := by
  obtain ⟨ys, rfl⟩ := List.getLast?_eq_some_iff.mp h
  rcases ys with _ | ⟨z, zs⟩
  · exact ⟨[], rfl⟩
  · refine ⟨joinSep (z :: zs) ++ sepChars, ?_⟩
    rw [joinSep_snoc (by simp), List.append_assoc]

theorem codePath_suffix {l : List Ranked} {r : Ranked} (h : l.getLast? = some r) :
    ∃ t, codePath l = t ++ r.code := by
  apply joinSep_getLast_suffix
  rw [List.getLast?_map, h]
  rfl

theorem namePath_suffix {l : List Ranked} {r : Ranked} (h : l.getLast? = some r) :
    ∃ t, namePath l = t ++ (r.rankStr ++ '-' :: r.name) := by
  apply joinSep_getLast_suffix
  rw [List.getLast?_map, h]
  rfl

/-- C10: every level column value of every output row is free of double
quotes, while the full code and name paths keep any double quotes coming
from the placed row's own code and name. -/
theorem c10_quote_handling (input : List Account) :
    ∀ y ∈ transformCoa input,
      (∀ s ∈ y.levelCodes, '\"' ∉ s) ∧ (∀ s ∈ y.levelNames, '\"' ∉ s) ∧
      ('\"' ∈ y.code → '\"' ∈ y.codeFull) ∧ ('\"' ∈ y.name → '\"' ∈ y.nameFull) := by
  intro y hy
  rw [mem_transformCoa] at hy
  obtain ⟨n, hn, rfl⟩ := hy
  rw [mem_buildHierarchy_iff] at hn
  obtain ⟨k, hk, hpl⟩ := hn
  obtain ⟨-, l, -, -, hlast, -, hcode, hname⟩ := placedAt_chain _ k n hpl
  refine ⟨?_, ?_, ?_, ?_⟩
  · intro s hs
    have hs' : s ∈ (List.range 10).map (fun i => getLevelValue n.codeFull i n.level) := hs
    obtain ⟨i, -, rfl⟩ := List.mem_map.mp hs'
    exact getLevelValue_no_quote _ _ _
  · intro s hs
    have hs' : s ∈ (List.range 10).map (fun i => getLevelValue n.nameFull i n.level) := hs
    obtain ⟨i, -, rfl⟩ := List.mem_map.mp hs'
    exact getLevelValue_no_quote _ _ _
  · intro hq
    obtain ⟨t, ht⟩ := codePath_suffix hlast
    show '\"' ∈ n.codeFull
    rw [hcode, ht]
    exact List.mem_append_right _ hq
  · intro hq
    obtain ⟨t, ht⟩ := namePath_suffix hlast
    show '\"' ∈ n.nameFull
    rw [hname, ht]
    exact List.mem_append_right _
      (List.mem_append_right _ (List.mem_cons_of_mem _ hq))

/-- Every row of an ancestor chain of the pipeline's template carries an
input account's code and name and a `skey`-formatted rank string. -/
theorem chain_row_from_input {input : List Account} {l : List Ranked}
    (hchain : chainOk (createCoaTemplateTemp input) l = true) :
    ∀ x ∈ l, ∃ a ∈ input, x.code = a.code ∧ x.name = a.name ∧
      ∃ k, x.rankStr = skey k := by
  intro x hx
  have hx' := chainOk_mem hchain x hx
  obtain ⟨⟨a, ha, -, h2, h3, -⟩, hk⟩ := mem_createCoaTemplateTemp hx'
  exact ⟨a, ha, h2, h3, hk⟩

/-- When no input code contains a pipe, the full code path of a placed node
splits into one segment per chain row, each an input account's code. -/
theorem placed_code_segments {input : List Account}
    (hpipe : ∀ a ∈ input, '|' ∉ a.code) {n : Node}
    (hn : n ∈ buildHierarchy (createCoaTemplateTemp input)) :
    (splitSep sepChars n.codeFull).length = n.level + 1 ∧
      ∀ s ∈ splitSep sepChars n.codeFull, ∃ a ∈ input, s = a.code := by
  rw [mem_buildHierarchy_iff] at hn
  obtain ⟨k, hk, hpl⟩ := hn
  obtain ⟨hlev, l, hchain, hne, hlast, hlen, hcode, -⟩ := placedAt_chain _ k n hpl
  have hchain' : chainOk (createCoaTemplateTemp input) l = true :=
    (Bool.and_eq_true_iff.mp hchain).1
  have hfrom := chain_row_from_input hchain'
  have hsplit : splitSep sepChars n.codeFull = l.map (fun a => a.code) := by
    rw [hcode]
    rw [show codePath l = joinSep (l.map (fun a => a.code)) from rfl]
    apply splitSep_joinSep (by simpa using hne)
    intro x hxm
    obtain ⟨r, hrl, rfl⟩ := List.mem_map.mp hxm
    obtain ⟨a, ha, hc, -, -⟩ := hfrom r hrl
    rw [hc]
    exact hpipe a ha
  rw [hsplit, List.length_map, hlen, hlev]
  refine ⟨rfl, ?_⟩
  intro s hs
  obtain ⟨r, hrl, rfl⟩ := List.mem_map.mp hs
  obtain ⟨a, ha, hc, -, -⟩ := hfrom r hrl
  exact ⟨a, ha, hc⟩

/-- When no input name contains a pipe, the full name path of a placed node
splits into one segment per chain row, each a rank string, a hyphen, and a
name; in particular each segment survives quote stripping. -/
theorem placed_name_segments {input : List Account}
    (hpipe : ∀ a ∈ input, '|' ∉ a.name) {n : Node}
    (hn : n ∈ buildHierarchy (createCoaTemplateTemp input)) :
    (splitSep sepChars n.nameFull).length = n.level + 1 ∧
      ∀ s ∈ splitSep sepChars n.nameFull,
        s.filter (fun c => c != '\"') ≠ [] := by
  rw [mem_buildHierarchy_iff] at hn
  obtain ⟨k, hk, hpl⟩ := hn
  obtain ⟨hlev, l, hchain, hne, hlast, hlen, -, hname⟩ := placedAt_chain _ k n hpl
  have hchain' : chainOk (createCoaTemplateTemp input) l = true :=
    (Bool.and_eq_true_iff.mp hchain).1
  have hfrom := chain_row_from_input hchain'
  have hsplit : splitSep sepChars n.nameFull
      = l.map (fun a => a.rankStr ++ '-' :: a.name) := by
    rw [hname]
    rw [show namePath l = joinSep (l.map (fun a => a.rankStr ++ '-' :: a.name)) from rfl]
    apply splitSep_joinSep (by simpa using hne)
    intro x hxm
    obtain ⟨r, hrl, rfl⟩ := List.mem_map.mp hxm
    obtain ⟨a, ha, -, hnm, nk, hrk⟩ := hfrom r hrl
    intro hpmem
    rcases List.mem_append.mp hpmem with hp1 | hp2
    · rw [hrk] at hp1
      exact skey_not_pipe nk hp1
    · rcases List.mem_cons.mp hp2 with hdash | hp3
      · exact absurd hdash (by decide)
      · rw [hnm] at hp3
        exact hpipe a ha hp3
  rw [hsplit, List.length_map, hlen, hlev]
  refine ⟨rfl, ?_⟩
  intro s hs
  obtain ⟨r, hrl, rfl⟩ := List.mem_map.mp hs
  have hdash : '-' ∈ (r.rankStr ++ '-' :: r.name).filter (fun c => c != '\"') :=
    List.mem_filter.mpr ⟨List.mem_append_right _ (List.mem_cons_self _ _), by decide⟩
  exact List.ne_nil_of_mem hdash

/-- C1 (amended): when no input code contains the pipe character, every
output row's level is the ' | '-segment count of its full code path minus
one, and the anchor-step roots have level 0 with a single-segment path equal
to their own code. -/
theorem c1_level_eq_segments (input : List Account)
    (hpipe : ∀ a ∈ input, '|' ∉ a.code) :
    (∀ y ∈ transformCoa input,
      (splitSep sepChars y.codeFull).length = y.level + 1)
    ∧ (∀ r ∈ rootNodes (createCoaTemplateTemp input),
        r.level = 0 ∧ r.codeFull = r.code ∧ splitSep sepChars r.codeFull = [r.code]) := by
  constructor
  · intro y hy
    rw [mem_transformCoa] at hy
    obtain ⟨n, hn, rfl⟩ := hy
    exact (placed_code_segments hpipe hn).1
  · intro r hr
    simp only [rootNodes, List.mem_map, List.mem_filter] at hr
    obtain ⟨a, ⟨ha, hroot⟩, rfl⟩ := hr
    obtain ⟨⟨b, hb, -, hcodeeq, -⟩, -⟩ := mem_createCoaTemplateTemp ha
    refine ⟨rfl, rfl, ?_⟩
    show splitSep sepChars a.code = [a.code]
    exact splitSep_of_not_pipe (by rw [hcodeeq]; exact hpipe b hb)

/-- Counterexample to C1 as stated: a root account whose code contains
' | ' is placed at level 0 with a two-segment full code path. -/
theorem c1_counterexample : ∃ y ∈ transformCoa exC1,
    (splitSep sepChars y.codeFull).length ≠ y.level + 1 := by decide

/-- Witness for C1 (amended) at the reference scenario. -/
theorem c1_level_eq_segments_witness :
    (∀ y ∈ transformCoa exW,
      (splitSep sepChars y.codeFull).length = y.level + 1)
    ∧ (∀ r ∈ rootNodes (createCoaTemplateTemp exW),
        r.level = 0 ∧ r.codeFull = r.code ∧ splitSep sepChars r.codeFull = [r.code]) :=
  c1_level_eq_segments exW (by decide)

/-- C6: the expansion is bounded: every output row has level at most 10 and
carries a root-anchored ancestor chain of exactly level + 1 rows, so an
account whose every chain from a root marker exceeds the bound never
appears. -/
theorem c6_depth_bounded (input : List Account) :
    ∀ y ∈ transformCoa input,
      y.level ≤ 10 ∧ ∃ l, rootedChain (createCoaTemplateTemp input) l = true ∧
        l.getLast? = some y.toRanked ∧ l.length = y.level + 1 := by
  intro y hy
  rw [mem_transformCoa] at hy
  obtain ⟨n, hn, rfl⟩ := hy
  rw [mem_buildHierarchy_iff] at hn
  obtain ⟨k, hk, hpl⟩ := hn
  obtain ⟨hlev, l, hchain, hne, hlast, hlen, -, -⟩ := placedAt_chain _ k n hpl
  refine ⟨?_, l, hchain, hlast, ?_⟩
  · show n.level ≤ 10
    omega
  · show l.length = n.level + 1
    omega

/-- Witness for C6 at the reference scenario's first output row. -/
theorem c6_depth_bounded_witness :
    exRow.level ≤ 10 ∧ ∃ l, rootedChain (createCoaTemplateTemp exW) l = true ∧
      l.getLast? = some exRow.toRanked ∧ l.length = exRow.level + 1 :=
  c6_depth_bounded exW exRow (by decide)

theorem range10_map_getD (g : Nat → List Char) (i : Nat) (hi : i < 10) :
    ((List.range 10).map g).getD i [] = g i := by
  rw [List.getD_eq_getElem?_getD, List.getElem?_map, List.getElem?_range hi]
  rfl

/-- C5 (amended): when no input code or name contains a pipe and every code
still has a character after quote stripping, each of the ten level columns
is the segment of the split path at its own index when that segment exists
and the segment at the row's level otherwise (that fallback index always
exists), and every level column is non-blank. -/
theorem c5_level_flattener (input : List Account)
    (hpipe : ∀ a ∈ input, '|' ∉ a.code ∧ '|' ∉ a.name)
    (hcode : ∀ a ∈ input, a.code.filter (fun c => c != '\"') ≠ []) :
    ∀ y ∈ transformCoa input,
      y.levelCodes.length = 10 ∧ y.levelNames.length = 10 ∧
      y.level < (splitSep sepChars y.codeFull).length ∧
      y.level < (splitSep sepChars y.nameFull).length ∧
      (∀ i, i < 10 →
        y.levelCodes.getD i []
          = (if i < (splitSep sepChars y.codeFull).length
             then ((splitSep sepChars y.codeFull).getD i []).filter (fun c => c != '\"')
             else ((splitSep sepChars y.codeFull).getD y.level []).filter
               (fun c => c != '\"'))
        ∧ y.levelNames.getD i []
          = (if i < (splitSep sepChars y.nameFull).length
             then ((splitSep sepChars y.nameFull).getD i []).filter (fun c => c != '\"')
             else ((splitSep sepChars y.nameFull).getD y.level []).filter
               (fun c => c != '\"'))) ∧
      (∀ s ∈ y.levelCodes, s ≠ []) ∧ (∀ s ∈ y.levelNames, s ≠ []) := by
  intro y hy
  rw [mem_transformCoa] at hy
  obtain ⟨n, hn, rfl⟩ := hy
  obtain ⟨hcs, hcsm⟩ := placed_code_segments (fun a ha => (hpipe a ha).1) hn
  obtain ⟨hns, hnsm⟩ := placed_name_segments (fun a ha => (hpipe a ha).2) hn
  have hlvc : n.level < (splitSep sepChars n.codeFull).length := by omega
  have hlvn : n.level < (splitSep sepChars n.nameFull).length := by omega
  have hgc : ∀ i, i < 10 →
      getLevelValue n.codeFull i n.level
        = (if i < (splitSep sepChars n.codeFull).length
           then ((splitSep sepChars n.codeFull).getD i []).filter (fun c => c != '\"')
           else ((splitSep sepChars n.codeFull).getD n.level []).filter
             (fun c => c != '\"')) := by
    intro i _
    by_cases hi : i < (splitSep sepChars n.codeFull).length
    · simp [getLevelValue, hi]
    · simp [getLevelValue, hi, hlvc]
  have hgn : ∀ i, i < 10 →
      getLevelValue n.nameFull i n.level
        = (if i < (splitSep sepChars n.nameFull).length
           then ((splitSep sepChars n.nameFull).getD i []).filter (fun c => c != '\"')
           else ((splitSep sepChars n.nameFull).getD n.level []).filter
             (fun c => c != '\"')) := by
    intro i _
    by_cases hi : i < (splitSep sepChars n.nameFull).length
    · simp [getLevelValue, hi]
    · simp [getLevelValue, hi, hlvn]
  refine ⟨?_, ?_, hlvc, hlvn, ?_, ?_, ?_⟩
  · show ((List.range 10).map (fun i => getLevelValue n.codeFull i n.level)).length = 10
    simp
  · show ((List.range 10).map (fun i => getLevelValue n.nameFull i n.level)).length = 10
    simp
  · intro i hi
    constructor
    · show ((List.range 10).map (fun i => getLevelValue n.codeFull i n.level)).getD i [] = _
      rw [range10_map_getD _ i hi]
      exact hgc i hi
    · show ((List.range 10).map (fun i => getLevelValue n.nameFull i n.level)).getD i [] = _
      rw [range10_map_getD _ i hi]
      exact hgn i hi
  · intro s hs
    have hs' : s ∈ (List.range 10).map (fun i => getLevelValue n.codeFull i n.level) := hs
    obtain ⟨i, hir, rfl⟩ := List.mem_map.mp hs'
    rw [List.mem_range] at hir
    rw [hgc i hir]
    have hmem : ∀ j, j < (splitSep sepChars n.codeFull).length →
        ((splitSep sepChars n.codeFull).getD j []).filter (fun c => c != '\"') ≠ [] := by
      intro j hj
      have hget : (splitSep sepChars n.codeFull).getD j []
          ∈ splitSep sepChars n.codeFull := by
        rw [List.getD_eq_getElem?_getD, List.getElem?_eq_getElem hj]
        exact List.getElem_mem _
      obtain ⟨a, ha, hseq⟩ := hcsm _ hget
      rw [hseq]
      exact hcode a ha
    by_cases hi : i < (splitSep sepChars n.codeFull).length
    · rw [if_pos hi]
      exact hmem i hi
    · rw [if_neg hi]
      exact hmem n.level hlvc
  · intro s hs
    have hs' : s ∈ (List.range 10).map (fun i => getLevelValue n.nameFull i n.level) := hs
    obtain ⟨i, hir, rfl⟩ := List.mem_map.mp hs'
    rw [List.mem_range] at hir
    rw [hgn i hir]
    have hmem : ∀ j, j < (splitSep sepChars n.nameFull).length →
        ((splitSep sepChars n.nameFull).getD j []).filter (fun c => c != '\"') ≠ [] := by
      intro j hj
      have hget : (splitSep sepChars n.nameFull).getD j []
          ∈ splitSep sepChars n.nameFull := by
        rw [List.getD_eq_getElem?_getD, List.getElem?_eq_getElem hj]
        exact List.getElem_mem _
      exact hnsm _ hget
    by_cases hi : i < (splitSep sepChars n.nameFull).length
    · rw [if_pos hi]
      exact hmem i hi
    · rw [if_neg hi]
      exact hmem n.level hlvn

/-- Counterexample to C5 as stated: a root account with an empty code yields
blank level code columns. -/
theorem c5_counterexample : ∃ y ∈ transformCoa exC5, ∃ s ∈ y.levelCodes, s = [] := by
  decide

/-- Witness for C5 (amended) at the reference scenario's first output row. -/
theorem c5_level_flattener_witness :
    exRow.levelCodes.length = 10 ∧ exRow.levelNames.length = 10 ∧
    exRow.level < (splitSep sepChars exRow.codeFull).length ∧
    exRow.level < (splitSep sepChars exRow.nameFull).length ∧
    (∀ i, i < 10 →
      exRow.levelCodes.getD i []
        = (if i < (splitSep sepChars exRow.codeFull).length
           then ((splitSep sepChars exRow.codeFull).getD i []).filter (fun c => c != '\"')
           else ((splitSep sepChars exRow.codeFull).getD exRow.level []).filter
             (fun c => c != '\"'))
      ∧ exRow.levelNames.getD i []
        = (if i < (splitSep sepChars exRow.nameFull).length
           then ((splitSep sepChars exRow.nameFull).getD i []).filter (fun c => c != '\"')
           else ((splitSep sepChars exRow.nameFull).getD exRow.level []).filter
             (fun c => c != '\"'))) ∧
    (∀ s ∈ exRow.levelCodes, s ≠ []) ∧ (∀ s ∈ exRow.levelNames, s ≠ []) :=
  c5_level_flattener exW (by decide) (by decide) exRow (by decide)

/-- Witness for C10 at the reference scenario's first output row. -/
theorem c10_quote_handling_witness :
    (∀ s ∈ exRow.levelCodes, '\"' ∉ s) ∧ (∀ s ∈ exRow.levelNames, '\"' ∉ s) ∧
    ('\"' ∈ exRow.code → '\"' ∈ exRow.codeFull) ∧
    ('\"' ∈ exRow.name → '\"' ∈ exRow.nameFull) :=
  c10_quote_handling exW exRow (by decide)

/-- C9: the Level Flattener's name columns: the indent name is the indent
concatenated with the name, and the parent name is the name of the placed
row whose code equals this row's parent code, blank (None) exactly when no
placed row has that code. -/
theorem c9_parent_and_indent_names (input : List Account) :
    ∀ x ∈ flattenHierarchy (buildHierarchy (createCoaTemplateTemp input)),
      x.nameIndent = x.indent ++ x.name
      ∧ (x.nameParent = none ↔
          ∀ m ∈ buildHierarchy (createCoaTemplateTemp input), m.code ≠ x.parentCode)
      ∧ (∀ m ∈ buildHierarchy (createCoaTemplateTemp input), m.code = x.parentCode →
          (∀ m2 ∈ buildHierarchy (createCoaTemplateTemp input),
            m2.code = x.parentCode → m2.name = m.name) →
          x.nameParent = some m.name) := by
  intro x hx
  rw [mem_flattenHierarchy] at hx
  obtain ⟨n, hn, rfl⟩ := hx
  have hpc : (mkFlat (buildHierarchy (createCoaTemplateTemp input)) n).parentCode
      = n.parentCode := rfl
  refine ⟨rfl, ?_, ?_⟩
  · show parentLookup _ n.parentCode = none ↔ _
    unfold parentLookup
    rw [Option.map_eq_none', List.getLast?_eq_none_iff, List.filter_eq_nil_iff]
    constructor
    · intro h0 m hm hcode
      exact h0 m hm (by simp [hcode, hpc])
    · intro hall m hm hcode
      exact hall m hm (by rw [hpc]; simpa using hcode)
  · intro m hm hcode hallsame
    rw [hpc] at hcode
    show parentLookup _ n.parentCode = some m.name
    unfold parentLookup
    rcases hlast : ((buildHierarchy (createCoaTemplateTemp input)).filter
        (fun m2 => m2.code == n.parentCode)).getLast? with _ | m'
    · rw [List.getLast?_eq_none_iff, List.filter_eq_nil_iff] at hlast
      exact absurd (by simp [hcode] : (fun m2 : Node => m2.code == n.parentCode) m = true)
        (hlast m hm)
    · have hm' := List.mem_of_getLast?_eq_some hlast
      rw [List.mem_filter] at hm'
      have hname : m'.name = m.name :=
        hallsame m' hm'.1 (by rw [hpc]; simpa using hm'.2)
      rw [hlast]
      simp [hname]

/-- Witness for C9 at the reference scenario's first flattened row. -/
theorem c9_parent_and_indent_names_witness :
    exFlatRow.nameIndent = exFlatRow.indent ++ exFlatRow.name
    ∧ (exFlatRow.nameParent = none ↔
        ∀ m ∈ buildHierarchy (createCoaTemplateTemp exW), m.code ≠ exFlatRow.parentCode)
    ∧ (∀ m ∈ buildHierarchy (createCoaTemplateTemp exW), m.code = exFlatRow.parentCode →
        (∀ m2 ∈ buildHierarchy (createCoaTemplateTemp exW),
          m2.code = exFlatRow.parentCode → m2.name = m.name) →
        exFlatRow.nameParent = some m.name) :=
  c9_parent_and_indent_names exW exFlatRow (by decide)

/-! ### Counting placements of one code across depth slices (for C4) -/

theorem childStep_countP (temp : List Ranked) (cur : List Node) (c : List Char) :
    (childStep temp cur).countP (fun n => n.code == c)
      = (temp.map (fun a => if a.code == c
          then cur.countP (fun p => p.code == a.parentCode) else 0)).sum := by
  show ((temp.map (fun a => (cur.filter (fun p => p.code == a.parentCode)).map
      (fun p => mkChild a p))).flatten).countP (fun n => n.code == c) = _
  rw [List.countP_flatten, List.map_map]
  congr 1
  apply List.map_congr_left
  intro a _
  simp only [Function.comp]
  rw [List.countP_map]
  by_cases hac : (a.code == c) = true
  · rw [if_pos hac]
    have hconst : ((fun n : Node => n.code == c) ∘ (fun p => mkChild a p))
        = fun _ => true := by
      funext p
      exact hac
    rw [hconst, List.countP_true, ← List.countP_eq_length_filter]
  · rw [if_neg hac]
    have hfalse : (a.code == c) = false := by
      rcases hb : (a.code == c) with _ | _
      · rfl
      · exact absurd hb hac
    have hconst : ((fun n : Node => n.code == c) ∘ (fun p => mkChild a p))
        = fun _ => false := by
      funext p
      exact hfalse
    rw [hconst, List.countP_false]
    rfl

theorem sum_map_if_code_none {temp : List Ranked} {c : List Char}
    (h : ∀ a ∈ temp, a.code ≠ c) (F : Ranked → Nat) :
    (temp.map (fun a => if a.code == c then F a else 0)).sum = 0 := by
  apply List.sum_eq_zero
  intro v hv
  obtain ⟨b, hb, rfl⟩ := List.mem_map.mp hv
  rw [if_neg (by simp [h b hb])]

theorem sum_map_if_code_unique {temp : List Ranked}
    (hnd : (temp.map (fun a => a.code)).Nodup)
    {a0 : Ranked} (ha0 : a0 ∈ temp) {c : List Char} (hc : a0.code = c)
    (F : Ranked → Nat) :
    (temp.map (fun a => if a.code == c then F a else 0)).sum = F a0 := by
  induction temp with
  | nil => simp at ha0
  | cons x rest ih =>
    rw [List.map_cons, List.sum_cons]
    rw [List.map_cons, List.nodup_cons] at hnd
    obtain ⟨hxnotin, hrestnd⟩ := hnd
    rcases List.mem_cons.mp ha0 with rfl | hmem
    · rw [if_pos (by simp [hc])]
      have hrest0 : (rest.map (fun a => if a.code == c then F a else 0)).sum = 0 := by
        apply sum_map_if_code_none _ F
        intro b hb he
        exact hxnotin (List.mem_map.mpr ⟨b, hb, by rw [he, hc]⟩)
      rw [hrest0]
      omega
    · have hxc : x.code ≠ c := by
        intro he
        exact hxnotin (List.mem_map.mpr ⟨a0, hmem, by rw [hc, he]⟩)
      rw [if_neg (by simp [hxc]), ih hrestnd hmem, Nat.zero_add]

theorem placedAt_zero_countP (temp : List Ranked) (c : List Char) :
    (placedAt temp 0).countP (fun n => n.code == c)
      = temp.countP (fun a => a.code == c && isRootMarker a.parentCode) := by
  show (rootNodes temp).countP _ = _
  unfold rootNodes
  rw [List.countP_map, List.countP_filter]
  apply List.countP_congr
  intro a _
  exact Iff.rfl

theorem placedAt_countP_zero {temp : List Ranked} {c : List Char}
    (h : ∀ a ∈ temp, a.code ≠ c) :
    ∀ k, (placedAt temp k).countP (fun n => n.code == c) = 0 := by
  intro k
  cases k with
  | zero =>
    rw [placedAt_zero_countP, List.countP_eq_zero]
    intro a ha
    simp [h a ha]
  | succ k =>
    show (childStep temp (placedAt temp k)).countP _ = 0
    rw [childStep_countP]
    exact sum_map_if_code_none h _

theorem placedAt_countP_succ {temp : List Ranked}
    (hnd : (temp.map (fun a => a.code)).Nodup)
    {a0 : Ranked} (ha0 : a0 ∈ temp) {c : List Char} (hc : a0.code = c) (k : Nat) :
    (placedAt temp (k + 1)).countP (fun n => n.code == c)
      = (placedAt temp k).countP (fun p => p.code == a0.parentCode) := by
  show (childStep temp (placedAt temp k)).countP _ = _
  rw [childStep_countP]
  exact sum_map_if_code_unique hnd ha0 hc _

theorem temp_code_countP_le_one {temp : List Ranked}
    (hnd : (temp.map (fun a => a.code)).Nodup) (c : List Char) :
    temp.countP (fun a => a.code == c && isRootMarker a.parentCode) ≤ 1 := by
  have h1 : temp.countP (fun a => a.code == c && isRootMarker a.parentCode)
      ≤ temp.countP (fun a => a.code == c) := by
    apply List.countP_mono_left
    intro a _ hp
    exact (Bool.and_eq_true_iff.mp hp).1
  have h2 : temp.countP (fun a => a.code == c) ≤ 1 := by
    clear h1
    induction temp with
    | nil => simp
    | cons x rest ih =>
      rw [List.map_cons, List.nodup_cons] at hnd
      obtain ⟨hxnotin, hrestnd⟩ := hnd
      by_cases hxc : (x.code == c) = true
      · rw [List.countP_cons_of_pos (fun a : Ranked => a.code == c) rest hxc]
        have hz : rest.countP (fun a => a.code == c) = 0 := by
          rw [List.countP_eq_zero]
          intro b hb hbc
          apply hxnotin
          rw [beq_iff_eq] at hxc hbc
          exact List.mem_map.mpr ⟨b, hb, by rw [hbc, hxc]⟩
        omega
      · rw [List.countP_cons_of_neg (fun a : Ranked => a.code == c) rest hxc]
        exact ih hrestnd
  omega

/-- Under globally unique codes none of which is a root marker, a code
appears at most once across all depth slices 0..k. -/
theorem placedAt_total_count_le_one {temp : List Ranked}
    (hnd : (temp.map (fun a => a.code)).Nodup)
    (hmark : ∀ a ∈ temp, a.code ≠ ['B', 'S'] ∧ a.code ≠ ['P', 'L']) :
    ∀ k c, (((List.range (k + 1)).map
      (fun j => (placedAt temp j).countP (fun n => n.code == c))).sum) ≤ 1 := by
  intro k
  induction k with
  | zero =>
    intro c
    rw [show List.range (0 + 1) = [0] from rfl,
      List.map_cons, List.map_nil, List.sum_cons, List.sum_nil]
    rw [placedAt_zero_countP]
    have := temp_code_countP_le_one hnd c
    omega
  | succ k ih =>
    intro c
    rw [List.range_succ_eq_map, List.map_cons, List.sum_cons, List.map_map]
    by_cases hex : ∃ a0 ∈ temp, a0.code = c
    · obtain ⟨a0, ha0, hc⟩ := hex
      have hpt : ∀ j ∈ List.range (k + 1),
          ((fun j => (placedAt temp j).countP (fun n => n.code == c)) ∘ Nat.succ) j
            = (placedAt temp j).countP (fun p => p.code == a0.parentCode) := by
        intro j _
        exact placedAt_countP_succ hnd ha0 hc j
      rw [List.map_congr_left hpt]
      by_cases hroot : isRootMarker a0.parentCode = true
      · have hmark' : ∀ a ∈ temp, a.code ≠ a0.parentCode := by
          intro a ha he
          rcases Bool.or_eq_true_iff.mp hroot with hbs | hpl
          · exact (hmark a ha).1 (by rw [he]; exact beq_iff_eq.mp hbs)
          · exact (hmark a ha).2 (by rw [he]; exact beq_iff_eq.mp hpl)
        have hz : ((List.range (k + 1)).map
            (fun j => (placedAt temp j).countP (fun p => p.code == a0.parentCode))).sum = 0 := by
          apply List.sum_eq_zero
          intro v hv
          obtain ⟨j, -, rfl⟩ := List.mem_map.mp hv
          exact placedAt_countP_zero hmark' j
        rw [hz]
        rw [placedAt_zero_countP]
        have := temp_code_countP_le_one hnd c
        omega
      · have hhead : (placedAt temp 0).countP (fun n => n.code == c) = 0 := by
          rw [placedAt_zero_countP, List.countP_eq_zero]
          intro a ha
          by_cases hca : a.code = c
          · have haa0 : a = a0 :=
              List.inj_on_of_nodup_map hnd ha ha0 (hca.trans hc.symm)
            rw [haa0]
            simp [hroot]
          · simp [hca]
        rw [hhead, Nat.zero_add]
        exact ih a0.parentCode
    · push_neg at hex
      have hall : ∀ j, (placedAt temp j).countP (fun n => n.code == c) = 0 :=
        placedAt_countP_zero hex
      have hz : ((List.range (k + 1)).map
          ((fun j => (placedAt temp j).countP (fun n => n.code == c)) ∘ Nat.succ)).sum = 0 := by
        apply List.sum_eq_zero
        intro v hv
        obtain ⟨j, -, rfl⟩ := List.mem_map.mp hv
        exact hall (j + 1)
      rw [hz, hall 0]
      omega


/-- The codes of the ranker's output are the codes of the kept input rows. -/
theorem temp_codes_sublist (input : List Account) :
    List.Sublist ((createCoaTemplateTemp input).map (fun r => r.code))
      (input.map (fun a => a.code)) := by
  have h1 : (createCoaTemplateTemp input).map (fun r => r.code)
      = (input.filter (fun a => a.order.isSome)).map (fun a => a.code) := by
    conv_rhs => rw [← List.enum_map_snd (input.filter (fun a => a.order.isSome))]
    simp only [createCoaTemplateTemp]
    rw [List.map_map, List.map_map]
    exact List.map_congr_left (fun ia _ => rfl)
  rw [h1]
  exact List.Sublist.map _ (List.filter_sublist _)

/-- C4 (amended): for inputs with globally unique codes none of which equals
a root marker, the Hierarchy Builder places each ranked account at most once,
and every placed node's full code and name paths materialize its complete
root-anchored ancestor chain. -/
theorem c4_placed_once_and_chains (input : List Account)
    (hnd : (input.map (fun a => a.code)).Nodup)
    (hmark : ∀ a ∈ input, a.code ≠ ['B', 'S'] ∧ a.code ≠ ['P', 'L']) :
    (∀ c, (buildHierarchy (createCoaTemplateTemp input)).countP
        (fun n => n.code == c) ≤ 1)
    ∧ (∀ n ∈ buildHierarchy (createCoaTemplateTemp input),
        ∃ l, rootedChain (createCoaTemplateTemp input) l = true ∧
          l.getLast? = some n.toRanked ∧ l.length = n.level + 1 ∧
          n.codeFull = codePath l ∧ n.nameFull = namePath l) := by
  have htnd : ((createCoaTemplateTemp input).map (fun r => r.code)).Nodup :=
    hnd.sublist (temp_codes_sublist input)
  have htmark : ∀ r ∈ createCoaTemplateTemp input,
      r.code ≠ ['B', 'S'] ∧ r.code ≠ ['P', 'L'] := by
    intro r hr
    obtain ⟨⟨a, ha, -, hcode, -⟩, -⟩ := mem_createCoaTemplateTemp hr
    rw [hcode]
    exact hmark a ha
  constructor
  · intro c
    rw [buildHierarchy_eq, List.countP_flatten, List.map_map]
    have := placedAt_total_count_le_one htnd htmark 10 c
    exact this
  · intro n hn
    rw [mem_buildHierarchy_iff] at hn
    obtain ⟨k, -, hpl⟩ := hn
    obtain ⟨hlev, l, hchain, -, hlast, hlen, hcode, hname⟩ := placedAt_chain _ k n hpl
    exact ⟨l, hchain, hlast, by omega, hcode, hname⟩

/-- Counterexample to C4 as stated: a single account coded 'BS' under the
'BS' marker has globally unique codes yet is placed eleven times. -/
theorem c4_counterexample :
    (exC4.map (fun a => a.code)).Nodup ∧
      1 < (buildHierarchy (createCoaTemplateTemp exC4)).countP
        (fun n => n.code == ['B', 'S']) := by decide

/-- Witness for C4 (amended) at the reference scenario. -/
theorem c4_placed_once_and_chains_witness :
    (∀ c, (buildHierarchy (createCoaTemplateTemp exW)).countP
        (fun n => n.code == c) ≤ 1)
    ∧ (∀ n ∈ buildHierarchy (createCoaTemplateTemp exW),
        ∃ l, rootedChain (createCoaTemplateTemp exW) l = true ∧
          l.getLast? = some n.toRanked ∧ l.length = n.level + 1 ∧
          n.codeFull = codePath l ∧ n.nameFull = namePath l) :=
  c4_placed_once_and_chains exW (by decide) (by decide)

theorem chainOk_unsnoc {temp : List Ranked} {ys : List Ranked} {r : Ranked}
    (hne : ys ≠ []) (h : chainOk temp (ys ++ [r]) = true) :
    chainOk temp ys = true ∧ r ∈ temp ∧
      ∃ p, ys.getLast? = some p ∧ r.parentCode = p.code := by
  induction ys with
  | nil => exact absurd rfl hne
  | cons x rest ih =>
    rcases rest with _ | ⟨y, rest'⟩
    · simp only [List.cons_append, List.nil_append, chainOk, Bool.and_eq_true,
        beq_iff_eq] at h
      obtain ⟨⟨hx, hlink⟩, hr⟩ := h
      exact ⟨hx, List.elem_iff.mp hr, x, rfl, hlink⟩
    · simp only [List.cons_append, chainOk, Bool.and_eq_true] at h
      obtain ⟨⟨hx, hlink⟩, htail⟩ := h
      obtain ⟨hchain', hrtemp, p, hlastp, hpc⟩ := ih (by simp) htail
      refine ⟨?_, hrtemp, p, ?_, hpc⟩
      · simp only [chainOk, Bool.and_eq_true]
        exact ⟨⟨hx, hlink⟩, hchain'⟩
      · rw [← hlastp]
        simp [List.getLast?_cons_cons]

theorem rootedChain_unsnoc {temp : List Ranked} {ys : List Ranked} {r : Ranked}
    (hne : ys ≠ []) (h : rootedChain temp (ys ++ [r]) = true) :
    rootedChain temp ys = true ∧ r ∈ temp ∧
      ∃ p, ys.getLast? = some p ∧ r.parentCode = p.code := by
  unfold rootedChain at h ⊢
  rw [Bool.and_eq_true_iff] at h
  obtain ⟨hchain, hhead⟩ := h
  obtain ⟨hchain', hrtemp, p, hlastp, hpc⟩ := chainOk_unsnoc hne hchain
  refine ⟨?_, hrtemp, p, hlastp, hpc⟩
  rw [Bool.and_eq_true_iff]
  refine ⟨hchain', ?_⟩
  rcases ys with _ | ⟨x, rest⟩
  · exact absurd rfl hne
  · simpa using hhead

/-- Completeness of the builder: every root-anchored chain row of the
template is placed at the chain's depth. -/
theorem chain_placed {temp : List Ranked} :
    ∀ l : List Ranked, rootedChain temp l = true →
      ∀ r, l.getLast? = some r →
        ∃ n ∈ placedAt temp (l.length - 1), n.toRanked = r := by
  intro l
  induction l using List.reverseRecOn with
  | nil => intro h; simp [rootedChain, chainOk] at h
  | append_singleton ys r' ih =>
    intro hchain r hlast
    rw [List.getLast?_concat] at hlast
    have hr : r' = r := Option.some.inj hlast
    subst hr
    rcases ys with _ | ⟨x, rest⟩
    · simp only [List.nil_append] at hchain ⊢
      unfold rootedChain at hchain
      rw [Bool.and_eq_true_iff] at hchain
      obtain ⟨hok, hhead⟩ := hchain
      refine ⟨mkRoot r', ?_, rfl⟩
      show mkRoot r' ∈ rootNodes temp
      unfold rootNodes
      refine List.mem_map.mpr ⟨r', List.mem_filter.mpr ⟨?_, ?_⟩, rfl⟩
      · exact List.elem_iff.mp (by simpa [chainOk] using hok)
      · simpa using hhead
    · obtain ⟨hchain', hrtemp, p, hlastp, hpc⟩ :=
        rootedChain_unsnoc (List.cons_ne_nil x rest) hchain
      obtain ⟨np, hnp, hnpr⟩ := ih hchain' p hlastp
      refine ⟨mkChild r' np, ?_, rfl⟩
      have hlen : ((x :: rest) ++ [r']).length - 1 = ((x :: rest).length - 1) + 1 := by
        simp
      rw [hlen]
      show mkChild r' np ∈ childStep temp (placedAt temp ((x :: rest).length - 1))
      unfold childStep
      refine List.mem_flatMap.mpr ⟨r', hrtemp, ?_⟩
      refine List.mem_map.mpr ⟨np, List.mem_filter.mpr ⟨hnp, ?_⟩, rfl⟩
      rw [show np.code = np.toRanked.code from rfl, hnpr, ← hpc]
      exact beq_self_eq_true _

/-- C7: the Consistency Checker returns exactly the input rows whose code
appears nowhere in the enriched output; when every order is numeric and
every template row has a root-anchored chain within the depth bound, it
returns no rows. -/
theorem c7_consistency_checker (input : List Account) :
    (∀ a, a ∈ debugCountCheck input (transformCoa input) ↔
      (a ∈ input ∧ ∀ o ∈ transformCoa input, o.code ≠ a.code))
    ∧ ((∀ a ∈ input, a.order.isSome) →
       (∀ r ∈ createCoaTemplateTemp input,
         ∃ l, rootedChain (createCoaTemplateTemp input) l = true ∧
           l.getLast? = some r ∧ l.length ≤ 11) →
       debugCountCheck input (transformCoa input) = []) := by
  constructor
  · intro a
    unfold debugCountCheck
    rw [List.mem_filter]
    constructor
    · rintro ⟨hin, hall⟩
      refine ⟨hin, ?_⟩
      intro o ho
      have := List.all_eq_true.mp hall o ho
      simpa using this
    · rintro ⟨hin, hall⟩
      refine ⟨hin, ?_⟩
      rw [List.all_eq_true]
      intro o ho
      simpa using hall o ho
  · intro hnum hres
    unfold debugCountCheck
    rw [List.filter_eq_nil_iff]
    intro a ha hpred
    have haf : a ∈ input.filter (fun x => x.order.isSome) :=
      List.mem_filter.mpr ⟨ha, hnum a ha⟩
    obtain ⟨i, hilt, hieq⟩ := List.mem_iff_getElem.mp haf
    have hienum : (i, a) ∈ (input.filter (fun x => x.order.isSome)).enum :=
      List.mem_enum_iff_getElem?.mpr (List.getElem?_eq_some_iff.mpr ⟨hilt, hieq⟩)
    have hrtemp0 := List.mem_map_of_mem (fun ia : Nat × Account =>
      ({ order := ord0 ia.2
         rankStr := skey (rankIn (input.filter (fun x => x.order.isSome)) ia.1 ia.2)
         code := ia.2.code, name := ia.2.name, parentCode := ia.2.parentCode
         typeAccount := ia.2.typeAccount, stmtType := ia.2.stmtType
         nameEng := ia.2.nameEng } : Ranked)) hienum
    have hrtemp : _ ∈ createCoaTemplateTemp input := hrtemp0
    obtain ⟨l, hchain, hlast, hlen⟩ := hres _ hrtemp
    obtain ⟨n, hnpl, hnr⟩ := chain_placed l hchain _ hlast
    have hl1 : 1 ≤ l.length := by
      rcases l with _ | _
      · simp [rootedChain, chainOk] at hchain
      · simp
    have hnb : n ∈ buildHierarchy (createCoaTemplateTemp input) :=
      mem_buildHierarchy_iff.mpr ⟨l.length - 1, by omega, hnpl⟩
    have hcode : n.code = a.code := by
      have h2 : n.toRanked.code = a.code := by rw [hnr]
      exact h2
    have hmem1 : n.code ∈ (buildHierarchy (createCoaTemplateTemp input)).map
        (fun n => n.code) := List.mem_map.mpr ⟨n, hnb, rfl⟩
    have hout : n.code ∈ (transformCoa input).map (fun y => y.code) :=
      (out_codes_perm input).mem_iff.mpr hmem1
    obtain ⟨o, ho, hoc⟩ := List.mem_map.mp hout
    have hcontra := List.all_eq_true.mp hpred o ho
    rw [hoc, hcode] at hcontra
    simp at hcontra

/-- Witness for C7: the reference scenario round-trips with no missing
rows. -/
theorem c7_consistency_checker_witness :
    debugCountCheck exW (transformCoa exW) = [] := by
  refine (c7_consistency_checker exW).2 (by decide) ?_
  intro r hr
  have htemp : createCoaTemplateTemp exW = [exWR1, exWR2] := by decide
  rw [htemp] at hr
  rcases List.mem_cons.mp hr with rfl | hr2
  · exact ⟨[exWR1], by decide, by decide, by decide⟩
  rcases List.mem_cons.mp hr2 with rfl | hr3
  · exact ⟨[exWR1, exWR2], by decide, by decide, by decide⟩
  · simp at hr3

/-- Witness for C8: one matching subunit row replicates the enriched COA once;
a code matching no subunit row yields the empty result. -/
theorem c8_subunit_cross_join_witness :
    (createBusinessSubunitCoa (transformCoa exW) ("KBC".toList) exSubs).length
      = (transformCoa exW).length * 1
    ∧ createBusinessSubunitCoa (transformCoa exW) ("ZZZ".toList) exSubs = [] := by
  constructor
  · have h := (c8_subunit_cross_join (transformCoa exW) ("KBC".toList) exSubs).1
    rw [h, show (exSubs.filter (fun s => s.pk == "KBC".toList)).length = 1 from by decide]
  · exact (c8_subunit_cross_join (transformCoa exW) ("ZZZ".toList) exSubs).2 (by decide)

end Coa
